import Mathlib

/-!
Shallow embedding of the `dstarlite` Go package (D* Lite pathfinding).

Go `float64` values are modelled as extended rationals `WithTop ℚ`:
the program only ever produces `+Inf` (never `-Inf` or `NaN`) through
`math.Inf(1)` and the default value of the sparse value maps, so `⊤`
plays the role of `+Inf` and finite doubles are modelled as rationals.
-/

/-- Extended value: a finite rational or `+Inf` (`⊤`).  Models the
non-NaN, non-`-Inf` `float64` values the program manipulates. -/
abbrev EV := WithTop ℚ

/-- `math.SmallestNonzeroFloat64`, the smallest positive subnormal double,
exactly `2^(-1074)`. -/
def smallestNonzeroFloat64 : ℚ := 1 / 2 ^ 1074

/-- Go `math.Abs` on finite values. -/
def ratAbs (q : ℚ) : ℚ := |q|

/-- `float64Equals` from the source: exact equality, or difference smaller
in magnitude than `math.SmallestNonzeroFloat64`.  On `⊤` (`+Inf`) the Go
code gives `Inf == Inf → true` and `|fin - Inf| = Inf ≥ ε → false`. -/
def float64Equals (a b : EV) : Bool :=
  match a, b with
  | ⊤, ⊤ => true
  | some x, some y => x = y ∨ ratAbs (x - y) < smallestNonzeroFloat64
  | _, _ => false

/-- `key` from the source: a pair of (extended) reals ordered lexically. -/
structure key where
  A : EV
  B : EV
deriving DecidableEq

/-- `key.compare` from the source: `-1` when `a < b`, `1` when `a > b`,
`0` when equal, comparing component `A` first and then `B`. -/
def key.compare (a b : key) : Int :=
  if a.A < b.A then -1
  else if b.A < a.A then 1
  else if a.B < b.B then -1
  else if b.B < a.B then 1
  else 0

/-! ## The indexed priority queue (`priorityqueue.go`)

The Go `map[State]int` is modelled as an association list with Go map
semantics: `mset` overwrites an existing entry in place or appends a new
one, `mdel` removes the entry, `mlookup` finds it. -/

variable {S : Type} [DecidableEq S]

/-- A queue entry: a state together with its key (`pqItem`). -/
structure pqItem (S : Type) where
  s : S
  k : key
deriving DecidableEq

/-- The indexed priority queue: the backing array `items` and the
`State → index` map `lookups`. -/
structure priorityQueue (S : Type) where
  lookups : List (S × Nat)
  items : List (pqItem S)

/-- Go map read: `q.lookups[s]` as an `Option`. -/
def mlookup (m : List (S × Nat)) (s : S) : Option Nat :=
  (m.find? (fun e => decide (e.1 = s))).map (·.2)

/-- Go map write `m[s] = i`: overwrite in place, or append when absent. -/
def mset (m : List (S × Nat)) (s : S) (i : Nat) : List (S × Nat) :=
  match m with
  | [] => [(s, i)]
  | e :: rest => if e.1 = s then (s, i) :: rest else e :: mset rest s i

/-- Go map `delete(m, s)`. -/
def mdel (m : List (S × Nat)) (s : S) : List (S × Nat) :=
  m.filter (fun e => !(decide (e.1 = s)))

/-- `Len` of the heap interface. -/
def pqLen (q : priorityQueue S) : Nat := q.items.length

/-- `Less` of the heap interface: strict key comparison of entries `i`, `j`. -/
def pqLess (q : priorityQueue S) (i j : Nat) : Bool :=
  match q.items.get? i, q.items.get? j with
  | some a, some b => a.k.compare b.k == -1
  | _, _ => false

/-- `Swap` of the heap interface: swap entries `i`, `j` and update both
states' indices in the lookups map (out-of-range indices never occur in
the program; the model leaves the queue unchanged there). -/
def pqSwap (q : priorityQueue S) (i j : Nat) : priorityQueue S :=
  match q.items.get? i, q.items.get? j with
  | some a, some b =>
      { items := (q.items.set i b).set j a,
        lookups := mset (mset q.lookups b.s i) a.s j }
  | _, _ => q

/-- `Push` of the heap interface: record the index and append. -/
def pqPush (q : priorityQueue S) (x : pqItem S) : priorityQueue S :=
  { lookups := mset q.lookups x.s q.items.length, items := q.items ++ [x] }

/-- `Pop` of the heap interface: drop the last entry and forget its index. -/
def pqPopLast (q : priorityQueue S) : Option (pqItem S) × priorityQueue S :=
  match q.items.getLast? with
  | none => (none, q)
  | some item =>
      (some item, { lookups := mdel q.lookups item.s, items := q.items.dropLast })

/-- `container/heap`'s `up` sift loop.  The loop variable `j` strictly
decreases (`(j-1)/2 < j` for `j > 0`, and the loop stops at `j = 0`), so
fuel `j+1` runs the loop to completion; `heapUp` supplies exactly that. -/
def heapUpF : Nat → priorityQueue S → Nat → priorityQueue S
  | 0, q, _ => q
  | fuel+1, q, j =>
    if (j - 1) / 2 = j ∨ ¬ pqLess q j ((j - 1) / 2) then q
    else heapUpF fuel (pqSwap q ((j - 1) / 2) j) ((j - 1) / 2)

def heapUp (q : priorityQueue S) (j : Nat) : priorityQueue S :=
  heapUpF (j + 1) q j

/-- `container/heap`'s `down` sift loop, returning the final position of
the sifted entry.  The loop variable `i` strictly increases and stays
below `n`, so fuel `n` runs the loop to completion. -/
def heapDownChild (q : priorityQueue S) (i n : Nat) : Nat :=
  if 2*i + 2 < n ∧ pqLess q (2*i + 2) (2*i + 1) then 2*i + 2 else 2*i + 1

def heapDownF : Nat → priorityQueue S → Nat → Nat → priorityQueue S × Nat
  | 0, q, i, _ => (q, i)
  | fuel+1, q, i, n =>
    if 2*i + 1 ≥ n then (q, i)
    else if ¬ pqLess q (heapDownChild q i n) i then (q, i)
    else heapDownF fuel (pqSwap q i (heapDownChild q i n)) (heapDownChild q i n) n

/-- `container/heap.down(h, i0, n)`: sift down and report whether the
entry moved (`i > i0`). -/
def heapDown (q : priorityQueue S) (i0 n : Nat) : priorityQueue S × Bool :=
  ((heapDownF n q i0 n).1, decide ((heapDownF n q i0 n).2 > i0))

/-- `container/heap.Push`. -/
def heapPush (q : priorityQueue S) (x : pqItem S) : priorityQueue S :=
  heapUp (pqPush q x) (pqLen (pqPush q x) - 1)

/-- `container/heap.Pop`. -/
def heapPop (q : priorityQueue S) : Option (pqItem S) × priorityQueue S :=
  pqPopLast (heapDown (pqSwap q 0 (pqLen q - 1)) 0 (pqLen q - 1)).1

/-- `container/heap.Remove`. -/
def heapRemove (q : priorityQueue S) (i : Nat) : Option (pqItem S) × priorityQueue S :=
  if pqLen q - 1 ≠ i then
    pqPopLast
      (if (heapDown (pqSwap q i (pqLen q - 1)) i (pqLen q - 1)).2
       then (heapDown (pqSwap q i (pqLen q - 1)) i (pqLen q - 1)).1
       else heapUp (heapDown (pqSwap q i (pqLen q - 1)) i (pqLen q - 1)).1 i)
  else pqPopLast q

/-- `priorityQueue.contains`. -/
def priorityQueue.contains (q : priorityQueue S) (s : S) : Bool :=
  (mlookup q.lookups s).isSome

/-- `priorityQueue.isEmpty`: Go tests `len(q.lookups) == 0`. -/
def priorityQueue.isEmpty (q : priorityQueue S) : Bool :=
  q.lookups.length == 0

/-- `priorityQueue.top`: `q.items[0].s` (Go panics on an empty queue;
the model returns `none`). -/
def priorityQueue.top (q : priorityQueue S) : Option S :=
  q.items.head?.map (·.s)

/-- `priorityQueue.topKey`: the sentinel `key{Inf, Inf}` on an empty
queue, otherwise the root's key. -/
def priorityQueue.topKey (q : priorityQueue S) : key :=
  if q.items.length = 0 then ⟨⊤, ⊤⟩
  else match q.items.head? with
       | some it => it.k
       | none => ⟨⊤, ⊤⟩

/-- `priorityQueue.pop`. -/
def priorityQueue.pop (q : priorityQueue S) : Option S × priorityQueue S :=
  let r := heapPop q
  (r.1.map (·.s), r.2)

/-- `priorityQueue.insert`. -/
def priorityQueue.insert (q : priorityQueue S) (s : S) (k : key) : priorityQueue S :=
  heapPush q ⟨s, k⟩

/-- `priorityQueue.update`: no-op when the current key compares equal to
`k`, otherwise `heap.Remove` followed by `heap.Push`.  A missing state
reads index `0` (Go map zero value); reading `items[index]` out of range
panics in Go and leaves the queue unchanged in the model. -/
def priorityQueue.update (q : priorityQueue S) (s : S) (k : key) : priorityQueue S :=
  match q.items.get? ((mlookup q.lookups s).getD 0) with
  | some it =>
      if it.k.compare k ≠ 0
      then heapPush (heapRemove q ((mlookup q.lookups s).getD 0)).2 ⟨s, k⟩
      else q
  | none => q

/-- `priorityQueue.remove`: delete from the lookups map, then
`heap.Remove` at the recorded index. -/
def priorityQueue.remove (q : priorityQueue S) (s : S) : priorityQueue S :=
  (heapRemove { lookups := mdel q.lookups s, items := q.items }
    ((mlookup q.lookups s).getD 0)).2

/-- `newPriorityQueue`. -/
def newPriorityQueue (S : Type) : priorityQueue S := ⟨[], []⟩

/-! ## The value maps and the planner (`dstarlite.go`) -/

/-- `valueMap`: a sparse map from states to values, reading `+Inf` for an
absent entry.  Since `get` is its only observation, it is modelled as the
induced total function. -/
def valueMap (S : Type) : Type := S → EV

/-- `valueMap.get`. -/
def valueMap.get (v : valueMap S) (s : S) : EV := v s

/-- Go `v[s] = x`. -/
def valueMap.set (v : valueMap S) (s : S) (x : EV) : valueMap S :=
  Function.update v s x

/-- The `Data` collaborator interface. -/
structure Data (S : Type) where
  Succ : S → List S
  Pred : S → List S
  Dist : S → S → EV
  Cost : S → S → EV

/-- The `Planner` struct. -/
structure Planner (S : Type) where
  d : Data S
  start : S
  goal : S
  rhs : valueMap S
  g : valueMap S
  u : priorityQueue S
  km : EV

/-- `Planner.calcKey`. -/
def Planner.calcKey (p : Planner S) (st : S) : key :=
  ⟨min (p.g.get st) (p.rhs.get st) + p.d.Dist p.start st + p.km,
   min (p.g.get st) (p.rhs.get st)⟩

/-- `Planner.updateVertex` (`eq` and `cont` of the source inlined). -/
def Planner.updateVertex (p : Planner S) (u : S) : Planner S :=
  if !float64Equals (p.g.get u) (p.rhs.get u) && p.u.contains u then
    { p with u := p.u.update u (p.calcKey u) }
  else if !float64Equals (p.g.get u) (p.rhs.get u) && !p.u.contains u then
    { p with u := p.u.insert u (p.calcKey u) }
  else if float64Equals (p.g.get u) (p.rhs.get u) && p.u.contains u then
    { p with u := p.u.remove u }
  else p

/-- The `computeShortestPath` loop guard. -/
def Planner.cspGuard (p : Planner S) : Bool :=
  !p.u.isEmpty &&
    (p.u.topKey.compare (p.calcKey p.start) == -1 ||
     decide (p.rhs.get p.start > p.g.get p.start))

/-- One iteration of the `computeShortestPath` loop body (the guard is
checked by `computeShortestPath`; an empty queue cannot occur under the
guard and leaves the planner unchanged). -/
def Planner.cspStep (p : Planner S) : Planner S :=
  match p.u.top with
  | none => p
  | some u =>
    let kOld := p.u.topKey
    let kNew := p.calcKey u
    if kOld.compare kNew == -1 then
      { p with u := p.u.update u kNew }
    else if p.g.get u > p.rhs.get u then
      let p1 := { p with g := p.g.set u (p.rhs.get u) }
      let p2 := { p1 with u := p1.u.remove u }
      (p.d.Pred u).foldl (fun q st =>
        let q1 := if ¬ st = p.goal
          then { q with rhs := q.rhs.set st (min (q.rhs.get st) (p.d.Cost st u + q.g.get u)) }
          else q
        q1.updateVertex st) p2
    else
      let gOld := p.g.get u
      let p1 := { p with g := p.g.set u ⊤ }
      let preds := p.d.Pred u ++ [u]
      preds.foldl (fun q st =>
        let q1 := if float64Equals (q.rhs.get st) (p.d.Cost st u + gOld) then
            (if ¬ st = p.goal then
              { q with rhs := q.rhs.set st ((p.d.Succ st).foldl (fun m sp =>
                  if p.d.Cost st sp + q.g.get sp < m then p.d.Cost st sp + q.g.get sp else m) ⊤) }
             else q)
          else q
        q1.updateVertex st) p1

/-- `Planner.computeShortestPath`, as a fuelled loop: with sufficient fuel
it runs until the guard fails, which is when the Go loop returns. -/
def Planner.computeShortestPath : Nat → Planner S → Planner S
  | 0, p => p
  | fuel+1, p => if p.cspGuard then Planner.computeShortestPath fuel p.cspStep else p

/-- `Planner.FlagChanged`. -/
def Planner.FlagChanged (p : Planner S) (u v : S) (cOld cNew : EV) : Planner S :=
  let p1 :=
    if cOld > cNew then
      (if ¬ u = p.goal then
        { p with rhs := p.rhs.set u (min (p.rhs.get u) (cNew + p.g.get v)) }
       else p)
    else if float64Equals (p.rhs.get u) (cOld + p.g.get v) then
      (if ¬ u = p.goal then
        { p with rhs := p.rhs.set u ((p.d.Succ u).foldl (fun m sp =>
            if p.d.Cost u sp + p.g.get sp < m then p.d.Cost u sp + p.g.get sp else m) ⊤) }
       else p)
    else p
  p1.updateVertex u

/-- `Planner.UpdateStart`. -/
def Planner.UpdateStart (p : Planner S) (s : S) : Planner S :=
  { p with start := s, km := p.km + p.d.Dist p.start s }

/-- The greedy walk inside `Plan`, as a fuelled loop.  `none` is the
fuel running out (the Go loop not having returned after that many
steps); `some none` is Go's `nil` (no path); Go dereferences a nil
`minS` when no successor improves on `+Inf`, modelled as `none`. -/
def Planner.planLoop (p : Planner S) : Nat → S → List S → Option (Option (List S))
  | 0, _, _ => none
  | fuel+1, st, path =>
    if st = p.goal then some (some path)
    else if p.rhs.get st = ⊤ then some none
    else
      match ((p.d.Succ st).foldl (fun (acc : EV × Option S) sp =>
          if p.d.Cost st sp + p.g.get sp < acc.1
          then (p.d.Cost st sp + p.g.get sp, some sp) else acc) (⊤, none)).2 with
      | none => none
      | some minS => p.planLoop fuel minS (path ++ [minS])

/-- `Planner.Plan`: run `computeShortestPath`, then walk greedily from
the start, returning the path together with the planner's new state. -/
def Planner.Plan (fuel : Nat) (p : Planner S) : Option (Option (List S)) × Planner S :=
  ((Planner.computeShortestPath fuel p).planLoop fuel
      (Planner.computeShortestPath fuel p).start
      [(Planner.computeShortestPath fuel p).start],
   Planner.computeShortestPath fuel p)

/-- `New`: the planner constructor. -/
def Planner.New (d : Data S) (start goal : S) : Planner S :=
  { d := d, start := start, goal := goal,
    rhs := valueMap.set (fun _ => ⊤) goal 0,
    g := fun _ => ⊤,
    u := (newPriorityQueue S).insert goal ⟨d.Dist start goal, 0⟩,
    km := 0 }

/-! ## The queue bookkeeping invariant -/

/-- The per-state condition of the bookkeeping invariant: the index map
points at an entry for `s`, or `s` is not queued at all. -/
def lookOK (q : priorityQueue S) (s : S) : Prop :=
  match mlookup q.lookups s with
  | some i => (q.items.get? i).map pqItem.s = some s
  | none => ∀ it ∈ q.items, it.s ≠ s

instance (q : priorityQueue S) (s : S) : Decidable (lookOK q s) := by
  unfold lookOK
  cases mlookup q.lookups s with
  | none => exact inferInstanceAs (Decidable (∀ it ∈ q.items, it.s ≠ s))
  | some i => exact inferInstanceAs (Decidable _)

/-- The queue bookkeeping invariant: `lookups` maps exactly the queued
states, each queued state occurs once in `items`, and its index is where
its entry sits. -/
def WF (q : priorityQueue S) : Prop :=
  (∀ s : S, lookOK q s) ∧ (q.items.map pqItem.s).Nodup

/-- The index transposition realised by `pqSwap`. -/
def swapIdx (i j k : Nat) : Nat :=
  if k = j then i else if k = i then j else k

/-- The binary-heap ordering invariant: no entry compares strictly less
than its parent. -/
def IsHeap (q : priorityQueue S) : Prop :=
  ∀ j, j < q.items.length → j ≠ 0 → pqLess q j ((j - 1) / 2) = false

instance (q : priorityQueue S) : Decidable (IsHeap q) := by
  unfold IsHeap
  infer_instance

/-- The one-step-lookahead value the code computes by folding over the
successors with the current `g` values (the `minRhs` loop shape shared by
`computeShortestPath`, `FlagChanged` and `Plan`). -/
def minRhsVal (p : Planner S) (st : S) : EV :=
  (p.d.Succ st).foldl (fun m sp =>
    if p.d.Cost st sp + p.g.get sp < m then p.d.Cost st sp + p.g.get sp else m) ⊤

/-! ## The spec's notion of true shortest-path cost

`specShortestCost d goal n v` is the least cost of a path of at most `n`
edges from `v` to `goal` (a Bellman–Ford iteration written from the
spec's description of the "true shortest-path cost from the start vertex
to the goal vertex", to compare against the planner's values). -/

def specShortestCost (d : Data S) (goal : S) : Nat → S → EV
  | 0, v => if v = goal then 0 else ⊤
  | n+1, v =>
      min (specShortestCost d goal n v)
        ((d.Succ v).foldl (fun m sp => min m (d.Cost v sp + specShortestCost d goal n sp)) ⊤)

/-- Spec-side: every step of the list follows a successor edge. -/
def specChain (d : Data S) (l : List S) : Prop :=
  l.Chain' (fun a b => b ∈ d.Succ a)

/-- Spec-side: `l` is a path from `st` to `go` along successor edges
(the spec's "path from the start vertex to the goal vertex"). -/
def specIsPath (d : Data S) (l : List S) (st go : S) : Prop :=
  specChain d l ∧ l.head? = some st ∧ l.getLast? = some go

/-- Spec-side: the cost of a walk, the sum of its edge costs. -/
def specPathCost (d : Data S) : List S → EV
  | [] => 0
  | [_] => 0
  | a :: b :: r => d.Cost a b + specPathCost d (b :: r)

/-- The two-vertex test graph: start `false`, goal `true`, one edge of
cost `1` from start to goal, zero (consistent, admissible) heuristic. -/
def exData : Data Bool :=
  { Succ := fun s => if s = false then [true] else [],
    Pred := fun s => if s = true then [false] else [],
    Dist := fun _ _ => 0,
    Cost := fun _ _ => 1 }

def ex0 : Planner Bool := Planner.New exData false true

/-- A two-vertex graph with no edges at all: the goal is unreachable. -/
def exDisc : Data Bool :=
  { Succ := fun _ => [],
    Pred := fun _ => [],
    Dist := fun _ _ => 0,
    Cost := fun _ _ => 1 }

def exDisc0 : Planner Bool := Planner.New exDisc false true

instance (q : priorityQueue S) [Fintype S] : Decidable (WF q) := by
  unfold WF
  exact instDecidableAnd

/-! ## Heap-order bookkeeping definitions -/

/-- The key as an element of the lexicographic order on pairs, the order
`key.compare` implements. -/
def keyval (a : key) : Lex (EV × EV) := toLex (a.A, a.B)

/-- The parent index in the array-encoded binary heap. -/
def parentIdx (j : Nat) : Nat := (j - 1) / 2

/-- The key stored at position `k` (sentinel for out-of-range reads;
only in-range positions are ever compared). -/
def kAt (q : priorityQueue S) (k : Nat) : key :=
  match q.items.get? k with
  | some it => it.k
  | none => ⟨⊤, ⊤⟩

/-- Heap order on the first `n` positions: no entry below `n` compares
strictly less than its parent. -/
def HeapBelow (q : priorityQueue S) (n : Nat) : Prop :=
  ∀ j, j < n → j ≠ 0 → ¬ (keyval (kAt q j) < keyval (kAt q (parentIdx j)))

/-- The sift-up invariant: heap order on the first `n` positions except
possibly the edge from `j` up to its parent, while `j`'s children (if
any) already dominate `j`'s parent. -/
def HeapExceptUp (q : priorityQueue S) (n j : Nat) : Prop :=
  (∀ k, k < n → k ≠ 0 → k ≠ j →
    ¬ (keyval (kAt q k) < keyval (kAt q (parentIdx k)))) ∧
  (∀ c, c < n → parentIdx c = j → j ≠ 0 →
    ¬ (keyval (kAt q c) < keyval (kAt q (parentIdx j))))

/-- The sift-down invariant: heap order on the first `n` positions except
possibly the edges from `i` down to its children, while those children
already dominate `i`'s parent. -/
def HeapDownInv (q : priorityQueue S) (n i : Nat) : Prop :=
  (∀ k, k < n → k ≠ 0 → parentIdx k ≠ i →
    ¬ (keyval (kAt q k) < keyval (kAt q (parentIdx k)))) ∧
  (∀ c, c < n → parentIdx c = i → i ≠ 0 →
    ¬ (keyval (kAt q c) < keyval (kAt q (parentIdx i))))

/-! ## Lemmas about the key comparison -/

theorem key.compare_eq_neg_one_iff (a b : key) :
    a.compare b = -1 ↔ (a.A < b.A ∨ (a.A = b.A ∧ a.B < b.B)) := by
  unfold key.compare
  split_ifs with h1 h2 h3 h4
  · simp [h1]
  · constructor
    · intro h; exact absurd h (by decide)
    · rintro (h | ⟨he, _⟩)
      · exact absurd h h1
      · exact absurd (he ▸ h2) (lt_irrefl _)
  · have he : a.A = b.A := le_antisymm (not_lt.mp h2) (not_lt.mp h1)
    exact ⟨fun _ => Or.inr ⟨he, h3⟩, fun _ => rfl⟩
  · constructor
    · intro h; exact absurd h (by decide)
    · rintro (h | ⟨_, h⟩)
      · exact absurd h h1
      · exact absurd h h3
  · constructor
    · intro h; exact absurd h (by decide)
    · rintro (h | ⟨_, h⟩)
      · exact absurd h h1
      · exact absurd h h3

theorem key.compare_eq_one_iff (a b : key) :
    a.compare b = 1 ↔ (b.A < a.A ∨ (a.A = b.A ∧ b.B < a.B)) := by
  unfold key.compare
  split_ifs with h1 h2 h3 h4
  · constructor
    · intro h; exact absurd h (by decide)
    · rintro (h | ⟨he, _⟩)
      · exact absurd h (lt_asymm h1)
      · exact absurd (he ▸ h1) (lt_irrefl _)
  · exact ⟨fun _ => Or.inl h2, fun _ => rfl⟩
  · have he : a.A = b.A := le_antisymm (not_lt.mp h2) (not_lt.mp h1)
    constructor
    · intro h; exact absurd h (by decide)
    · rintro (h | ⟨_, h⟩)
      · exact absurd h h2
      · exact absurd (lt_trans h h3) (lt_irrefl _)
  · exact ⟨fun _ => Or.inr ⟨le_antisymm (not_lt.mp h2) (not_lt.mp h1), h4⟩, fun _ => rfl⟩
  · constructor
    · intro h; exact absurd h (by decide)
    · rintro (h | ⟨_, h⟩)
      · exact absurd h h2
      · exact absurd h h4

theorem key.compare_eq_zero_iff (a b : key) :
    a.compare b = 0 ↔ a.A = b.A ∧ a.B = b.B := by
  unfold key.compare
  split_ifs with h1 h2 h3 h4
  · constructor
    · intro h; exact absurd h (by decide)
    · rintro ⟨he, _⟩; exact absurd (he ▸ h1) (lt_irrefl _)
  · constructor
    · intro h; exact absurd h (by decide)
    · rintro ⟨he, _⟩; exact absurd (he ▸ h2) (lt_irrefl _)
  · constructor
    · intro h; exact absurd h (by decide)
    · rintro ⟨_, he⟩; exact absurd (he ▸ h3) (lt_irrefl _)
  · constructor
    · intro h; exact absurd h (by decide)
    · rintro ⟨_, he⟩; exact absurd (he ▸ h4) (lt_irrefl _)
  · have heA : a.A = b.A := le_antisymm (not_lt.mp h2) (not_lt.mp h1)
    have heB : a.B = b.B := le_antisymm (not_lt.mp h4) (not_lt.mp h3)
    exact ⟨fun _ => ⟨heA, heB⟩, fun _ => rfl⟩

theorem key.compare_total (a b : key) :
    a.compare b = -1 ∨ a.compare b = 0 ∨ a.compare b = 1 := by
  unfold key.compare
  split_ifs <;> simp

theorem key.compare_trans {a b c : key}
    (hab : a.compare b = -1) (hbc : b.compare c = -1) : a.compare c = -1 := by
  rw [key.compare_eq_neg_one_iff] at hab hbc ⊢
  rcases hab with h1 | ⟨e1, l1⟩
  · rcases hbc with h2 | ⟨e2, _⟩
    · exact Or.inl (lt_trans h1 h2)
    · exact Or.inl (e2 ▸ h1)
  · rcases hbc with h2 | ⟨e2, l2⟩
    · exact Or.inl (e1 ▸ h2)
    · exact Or.inr ⟨e1.trans e2, lt_trans l1 l2⟩

theorem key.compare_antisymm (a b : key) :
    b.compare a = 1 ↔ a.compare b = -1 := by
  rw [key.compare_eq_one_iff, key.compare_eq_neg_one_iff]
  constructor
  · rintro (h | ⟨he, h⟩)
    · exact Or.inl h
    · exact Or.inr ⟨he.symm, h⟩
  · rintro (h | ⟨he, h⟩)
    · exact Or.inl h
    · exact Or.inr ⟨he.symm, h⟩

/-! ## Lemmas about the association-list map operations -/

theorem mlookup_nil (s : S) : mlookup ([] : List (S × Nat)) s = none := rfl

theorem mlookup_cons (e : S × Nat) (m : List (S × Nat)) (s : S) :
    mlookup (e :: m) s = if e.1 = s then some e.2 else mlookup m s := by
  by_cases h : e.1 = s <;> simp [mlookup, List.find?_cons, h]

theorem mlookup_mset (m : List (S × Nat)) (s : S) (i : Nat) (s' : S) :
    mlookup (mset m s i) s' = if s' = s then some i else mlookup m s' := by
  induction m with
  | nil =>
      by_cases h : s' = s
      · subst h; simp [mset, mlookup_cons]
      · have h' : ¬ s = s' := fun hc => h hc.symm
        simp [mset, mlookup_cons, mlookup_nil, h, h']
  | cons e rest ih =>
      by_cases he : e.1 = s
      · by_cases h : s' = s
        · subst h; simp [mset, he, mlookup_cons]
        · have h' : ¬ s = s' := fun hc => h hc.symm
          have he' : ¬ e.1 = s' := fun hc => h' (he ▸ hc)
          simp [mset, he, mlookup_cons, h, h', he']
      · by_cases h2 : e.1 = s'
        · have hn : ¬ s' = s := fun hc => he (h2.trans hc)
          simp [mset, he, mlookup_cons, h2, hn]
        · simp [mset, he, mlookup_cons, h2, ih]

theorem mdel_nil (s : S) : mdel ([] : List (S × Nat)) s = [] := rfl

theorem mdel_cons (e : S × Nat) (m : List (S × Nat)) (s : S) :
    mdel (e :: m) s = if e.1 = s then mdel m s else e :: mdel m s := by
  by_cases h : e.1 = s <;> simp [mdel, List.filter_cons, h]

theorem mlookup_mdel (m : List (S × Nat)) (s s' : S) :
    mlookup (mdel m s) s' = if s' = s then none else mlookup m s' := by
  induction m with
  | nil => simp [mdel_nil, mlookup_nil]
  | cons e rest ih =>
      rw [mdel_cons]
      by_cases he : e.1 = s
      · rw [if_pos he, ih, mlookup_cons]
        by_cases h : s' = s
        · simp [h]
        · have he' : ¬ e.1 = s' := fun hc => h ((hc.symm.trans he : s' = s))
          simp [h, he']
      · rw [if_neg he, mlookup_cons, mlookup_cons]
        by_cases h2 : e.1 = s'
        · have h : ¬ s' = s := fun hc => he (h2.trans hc)
          simp [h2, h]
        · simp [h2, ih]

theorem mdel_mdel_self (m : List (S × Nat)) (s : S) :
    mdel (mdel m s) s = mdel m s := by
  induction m with
  | nil => rfl
  | cons e rest ih =>
      rw [mdel_cons]
      by_cases h : e.1 = s <;> simp [h, mdel_cons, ih]

theorem mdel_mset_self (m : List (S × Nat)) (s : S) (i : Nat) :
    mdel (mset m s i) s = mdel m s := by
  induction m with
  | nil => simp [mset, mdel_cons, mdel_nil]
  | cons e rest ih =>
      by_cases h : e.1 = s <;>
        simp [mset, h, mdel_cons, ih]

theorem mdel_mset_other (m : List (S × Nat)) (s x : S) (i : Nat) (hx : ¬ x = s) :
    mdel (mset m x i) s = mset (mdel m s) x i := by
  induction m with
  | nil => simp [mset, mdel_cons, mdel_nil, hx]
  | cons e rest ih =>
      by_cases he : e.1 = x
      · have hes : ¬ e.1 = s := fun hc => hx ((he.symm.trans hc : x = s))
        simp only [mset, if_pos he, mdel_cons, hx, if_neg hx, if_neg hes]
        rfl
      · by_cases hs : e.1 = s
        · simp only [mset, if_neg he, mdel_cons, if_pos hs, ih]
        · simp only [mset, if_neg he, mdel_cons, if_neg hs, ih]

/-- The lookups-map congruence used to drive the two-queue simulation:
equal once the entry for `s` is discarded. -/
theorem mdel_mset_congr {m1 m2 : List (S × Nat)} (s : S) (x : S) (i : Nat)
    (h : mdel m1 s = mdel m2 s) :
    mdel (mset m1 x i) s = mdel (mset m2 x i) s := by
  by_cases hx : x = s
  · subst hx; rw [mdel_mset_self, mdel_mset_self, h]
  · rw [mdel_mset_other _ _ _ _ hx, mdel_mset_other _ _ _ _ hx, h]

theorem mdel_comm (m : List (S × Nat)) (s x : S) :
    mdel (mdel m x) s = mdel (mdel m s) x := by
  induction m with
  | nil => rfl
  | cons e rest ih =>
      by_cases h1 : e.1 = x <;> by_cases h2 : e.1 = s <;>
        simp only [mdel_cons, if_pos, if_neg, h1, h2, mdel_cons, ih]
      · rw [if_pos (h1.symm.trans h2)]
      · rw [if_neg (fun hc => h2 (h1.trans hc)), mdel_cons, if_pos h1]
      · rw [if_neg (fun hc => h1 (h2.trans hc)), mdel_cons, if_pos h2, ih]
      · simp only [if_neg (fun hc => False.elim hc), mdel_cons, if_neg h1, if_neg h2, ih]

theorem mdel_mdel_congr {m1 m2 : List (S × Nat)} (s x : S)
    (h : mdel m1 s = mdel m2 s) :
    mdel (mdel m1 x) s = mdel (mdel m2 x) s := by
  rw [mdel_comm, mdel_comm m2, h]

/-- State-uniqueness in index form, the workhorse consequence of
`Nodup`. -/
theorem nodup_states_inj {l : List (pqItem S)}
    (h : (l.map pqItem.s).Nodup) {k m : Nat} {it it' : pqItem S}
    (hk : l.get? k = some it) (hm : l.get? m = some it') (hs : it.s = it'.s) :
    k = m := by
  have hkl : k < l.length := by
    by_contra hc
    rw [List.get?_eq_none.2 (le_of_not_lt hc)] at hk
    exact Option.noConfusion hk
  have hml : m < l.length := by
    by_contra hc
    rw [List.get?_eq_none.2 (le_of_not_lt hc)] at hm
    exact Option.noConfusion hm
  have hkl' : k < (l.map pqItem.s).length := by simpa using hkl
  have hgm : (l.map pqItem.s).get? k = (l.map pqItem.s).get? m := by
    rw [List.get?_map, List.get?_map, hk, hm]
    simp [hs]
  exact List.get?_inj hkl' h hgm

/-! ## `pqSwap` characterisation and invariant preservation -/

theorem pqSwap_length (q : priorityQueue S) (i j : Nat) :
    (pqSwap q i j).items.length = q.items.length := by
  unfold pqSwap
  cases h1 : q.items.get? i <;> cases h2 : q.items.get? j <;>
    simp [List.length_set]

theorem pqSwap_lookups (q : priorityQueue S) {i j : Nat} {a b : pqItem S}
    (hi : q.items.get? i = some a) (hj : q.items.get? j = some b) :
    (pqSwap q i j).lookups = mset (mset q.lookups b.s i) a.s j := by
  unfold pqSwap
  rw [hi, hj]

theorem nodup_states_of_inj {l : List (pqItem S)}
    (h : ∀ k m it it', l.get? k = some it → l.get? m = some it' → it.s = it'.s → k = m) :
    (l.map pqItem.s).Nodup := by
  rw [List.nodup_iff_injective_get]
  intro u v huv
  have hu : u.1 < l.length := by simpa using u.2
  have hv : v.1 < l.length := by simpa using v.2
  have h1 : l.get? u.1 = some (l.get ⟨u.1, hu⟩) := List.get?_eq_get hu
  have h2 : l.get? v.1 = some (l.get ⟨v.1, hv⟩) := List.get?_eq_get hv
  have hmu : (l.map pqItem.s).get? u.1 = some ((l.map pqItem.s).get u) :=
    List.get?_eq_get u.2
  have hmv : (l.map pqItem.s).get? v.1 = some ((l.map pqItem.s).get v) :=
    List.get?_eq_get v.2
  rw [List.get?_map, h1] at hmu
  rw [List.get?_map, h2] at hmv
  have hs : (l.get ⟨u.1, hu⟩).s = (l.get ⟨v.1, hv⟩).s := by
    simp only [Option.map_some'] at hmu hmv
    rw [Option.some.inj hmu, Option.some.inj hmv, huv]
  exact Fin.ext (h u.1 v.1 _ _ h1 h2 hs)

theorem pqSwap_items_get? (q : priorityQueue S) {i j : Nat} {a b : pqItem S}
    (hi : q.items.get? i = some a) (hj : q.items.get? j = some b) (k : Nat) :
    (pqSwap q i j).items.get? k =
      if k = j then some a else if k = i then some b else q.items.get? k := by
  have hil : i < q.items.length := by
    by_contra hc
    rw [List.get?_eq_none.2 (le_of_not_lt hc)] at hi
    exact Option.noConfusion hi
  have hjl : j < q.items.length := by
    by_contra hc
    rw [List.get?_eq_none.2 (le_of_not_lt hc)] at hj
    exact Option.noConfusion hj
  unfold pqSwap
  rw [hi, hj]
  simp only
  by_cases hkj : k = j
  · subst hkj
    rw [if_pos rfl, List.get?_set_eq_of_lt a (by simpa [List.length_set] using hjl)]
  · rw [if_neg hkj, List.get?_set_ne a _ (fun hc : j = k => hkj hc.symm)]
    by_cases hki : k = i
    · subst hki
      rw [if_pos rfl, List.get?_set_eq_of_lt b hil]
    · rw [if_neg hki, List.get?_set_ne b _ (fun hc : i = k => hki hc.symm)]

theorem swapIdx_inj (i j : Nat) {k m : Nat} (h : swapIdx i j k = swapIdx i j m) :
    k = m := by
  unfold swapIdx at h
  split_ifs at h <;> omega

theorem pqSwap_items_get?_swapIdx (q : priorityQueue S) {i j : Nat} {a b : pqItem S}
    (hi : q.items.get? i = some a) (hj : q.items.get? j = some b) (k : Nat) :
    (pqSwap q i j).items.get? k = q.items.get? (swapIdx i j k) := by
  rw [pqSwap_items_get? q hi hj k]
  unfold swapIdx
  by_cases hkj : k = j
  · rw [if_pos hkj, if_pos hkj, hi]
  · rw [if_neg hkj, if_neg hkj]
    by_cases hki : k = i
    · rw [if_pos hki, if_pos hki, hj]
    · rw [if_neg hki, if_neg hki]

theorem pqSwap_eq_self (q : priorityQueue S) (i j : Nat)
    (h : q.items.get? i = none ∨ q.items.get? j = none) :
    pqSwap q i j = q := by
  rcases h with h | h
  · unfold pqSwap; rw [h]
  · unfold pqSwap
    cases h1 : q.items.get? i with
    | none => rfl
    | some a => rw [h]

theorem lookOK_of_some {q : priorityQueue S} {s : S} (i : Nat)
    (hl : mlookup q.lookups s = some i)
    (hit : (q.items.get? i).map pqItem.s = some s) : lookOK q s := by
  unfold lookOK
  rw [hl]
  exact hit

theorem lookOK_of_none {q : priorityQueue S} {s : S}
    (hl : mlookup q.lookups s = none)
    (h : ∀ it ∈ q.items, it.s ≠ s) : lookOK q s := by
  unfold lookOK
  rw [hl]
  exact h

theorem lookOK_some_elim {q : priorityQueue S} {s : S} {i : Nat}
    (hok : lookOK q s) (hl : mlookup q.lookups s = some i) :
    (q.items.get? i).map pqItem.s = some s := by
  unfold lookOK at hok
  rw [hl] at hok
  exact hok

theorem lookOK_none_elim {q : priorityQueue S} {s : S}
    (hok : lookOK q s) (hl : mlookup q.lookups s = none) :
    ∀ it ∈ q.items, it.s ≠ s := by
  unfold lookOK at hok
  rw [hl] at hok
  exact hok

theorem WF_pqSwap (q : priorityQueue S) (i j : Nat) (h : WF q) :
    WF (pqSwap q i j) := by
  cases hi : q.items.get? i with
  | none => rw [pqSwap_eq_self q i j (Or.inl hi)]; exact h
  | some a =>
  cases hj : q.items.get? j with
  | none => rw [pqSwap_eq_self q i j (Or.inr hj)]; exact h
  | some b =>
  have hmema : a ∈ q.items := List.get?_mem hi
  have hmemb : b ∈ q.items := List.get?_mem hj
  constructor
  · intro s
    by_cases hsa : s = a.s
    · refine lookOK_of_some j ?_ ?_
      · rw [pqSwap_lookups q hi hj, mlookup_mset, if_pos hsa]
      · rw [pqSwap_items_get? q hi hj j, if_pos rfl]
        simp [hsa]
    · by_cases hsb : s = b.s
      · refine lookOK_of_some i ?_ ?_
        · rw [pqSwap_lookups q hi hj, mlookup_mset, if_neg hsa, mlookup_mset,
            if_pos hsb]
        · by_cases hij : i = j
          · have hab : a = b := by
              rw [hij] at hi; rw [hi] at hj; exact Option.some.inj hj
            exact absurd (hsb.trans (hab ▸ rfl : b.s = a.s)) hsa
          · rw [pqSwap_items_get? q hi hj i, if_neg hij, if_pos rfl]
            simp [hsb]
      · have hlq : (pqSwap q i j).lookups = mset (mset q.lookups b.s i) a.s j :=
          pqSwap_lookups q hi hj
        have hok := h.1 s
        cases hl : mlookup q.lookups s with
        | some k =>
            have hk := lookOK_some_elim hok hl
            have hik : ¬ k = i := by
              intro hc
              subst hc
              rw [hi] at hk
              exact hsa (Option.some.inj hk).symm
            have hjk : ¬ k = j := by
              intro hc
              subst hc
              rw [hj] at hk
              exact hsb (Option.some.inj hk).symm
            refine lookOK_of_some k ?_ ?_
            · rw [hlq, mlookup_mset, if_neg hsa, mlookup_mset, if_neg hsb]
              exact hl
            · rw [pqSwap_items_get? q hi hj k, if_neg hjk, if_neg hik]
              exact hk
        | none =>
            have hn := lookOK_none_elim hok hl
            refine lookOK_of_none ?_ ?_
            · rw [hlq, mlookup_mset, if_neg hsa, mlookup_mset, if_neg hsb]
              exact hl
            · have hitems : (pqSwap q i j).items = (q.items.set i b).set j a := by
                unfold pqSwap
                rw [hi, hj]
              intro it hit
              rw [hitems] at hit
              rcases List.mem_or_eq_of_mem_set hit with hit1 | hq
              · rcases List.mem_or_eq_of_mem_set hit1 with hit2 | hq2
                · exact hn it hit2
                · rw [hq2]; exact hn b hmemb
              · rw [hq]; exact hn a hmema
  · apply nodup_states_of_inj
    intro k m it it' h1 h2 hs
    rw [pqSwap_items_get?_swapIdx q hi hj] at h1 h2
    exact swapIdx_inj i j (nodup_states_inj h.2 h1 h2 hs)

theorem pqSwap_items_get?_other (q : priorityQueue S) (i j k : Nat)
    (hki : ¬ k = i) (hkj : ¬ k = j) :
    (pqSwap q i j).items.get? k = q.items.get? k := by
  cases hi : q.items.get? i with
  | none => rw [pqSwap_eq_self q i j (Or.inl hi)]
  | some a =>
      cases hj : q.items.get? j with
      | none => rw [pqSwap_eq_self q i j (Or.inr hj)]
      | some b => rw [pqSwap_items_get? q hi hj k, if_neg hkj, if_neg hki]

theorem pqSwap_contains (q : priorityQueue S) (i j : Nat) (s : S)
    (h : q.contains s = true) : (pqSwap q i j).contains s = true := by
  cases hi : q.items.get? i with
  | none => rw [pqSwap_eq_self q i j (Or.inl hi)]; exact h
  | some a =>
      cases hj : q.items.get? j with
      | none => rw [pqSwap_eq_self q i j (Or.inr hj)]; exact h
      | some b =>
          unfold priorityQueue.contains at h ⊢
          rw [pqSwap_lookups q hi hj, mlookup_mset, mlookup_mset]
          by_cases h1 : s = a.s
          · rw [if_pos h1]; rfl
          · rw [if_neg h1]
            by_cases h2 : s = b.s
            · rw [if_pos h2]; rfl
            · rw [if_neg h2]; exact h

/-! ## The sift loops: invariant preservation and untouched positions -/

theorem WF_heapUpF (f : Nat) (q : priorityQueue S) (j : Nat) (h : WF q) :
    WF (heapUpF f q j) := by
  induction f generalizing q j with
  | zero => exact h
  | succ f ih =>
      unfold heapUpF
      split
      · exact h
      · exact ih _ _ (WF_pqSwap _ _ _ h)

theorem WF_heapDownF (f : Nat) (q : priorityQueue S) (i n : Nat) (h : WF q) :
    WF (heapDownF f q i n).1 := by
  induction f generalizing q i with
  | zero => exact h
  | succ f ih =>
      unfold heapDownF
      split
      · exact h
      · split
        · exact h
        · exact ih _ _ (WF_pqSwap _ _ _ h)

theorem heapUpF_length (f : Nat) (q : priorityQueue S) (j : Nat) :
    (heapUpF f q j).items.length = q.items.length := by
  induction f generalizing q j with
  | zero => rfl
  | succ f ih =>
      unfold heapUpF
      split
      · rfl
      · rw [ih, pqSwap_length]

theorem heapDownF_length (f : Nat) (q : priorityQueue S) (i n : Nat) :
    (heapDownF f q i n).1.items.length = q.items.length := by
  induction f generalizing q i with
  | zero => rfl
  | succ f ih =>
      unfold heapDownF
      split
      · rfl
      · split
        · rfl
        · rw [ih, pqSwap_length]

theorem heapUpF_contains (f : Nat) (q : priorityQueue S) (j : Nat) (s : S)
    (h : q.contains s = true) : (heapUpF f q j).contains s = true := by
  induction f generalizing q j with
  | zero => exact h
  | succ f ih =>
      unfold heapUpF
      split
      · exact h
      · exact ih _ _ (pqSwap_contains _ _ _ _ h)

theorem heapUpF_get?_gt (f : Nat) (q : priorityQueue S) (j m : Nat) (hm : j < m) :
    (heapUpF f q j).items.get? m = q.items.get? m := by
  induction f generalizing q j with
  | zero => rfl
  | succ f ih =>
      unfold heapUpF
      split
      · rfl
      · rename_i hcond
        have hij : (j - 1) / 2 ≠ j := fun hc => hcond (Or.inl hc)
        have hjpos : 0 < j := by
          rcases Nat.eq_zero_or_pos j with h0 | h0
          · exact absurd (by simp [h0]) hij
          · exact h0
        have hilt : (j - 1) / 2 < j := by omega
        rw [ih _ _ (lt_trans hilt hm),
          pqSwap_items_get?_other _ _ _ _ (by omega) (by omega)]

theorem get?_isSome_lt {α : Type} {l : List α} {k : Nat} {x : α}
    (h : l.get? k = some x) : k < l.length := by
  by_contra hc
  rw [List.get?_eq_none.2 (le_of_not_lt hc)] at h
  exact Option.noConfusion h

theorem map_get?_some_elim {l : List (pqItem S)} {k : Nat} {s : S}
    (h : (l.get? k).map pqItem.s = some s) :
    ∃ it, l.get? k = some it ∧ it.s = s := by
  cases hg : l.get? k with
  | none => rw [hg] at h; exact Option.noConfusion h
  | some it =>
      rw [hg] at h
      exact ⟨it, rfl, Option.some.inj (by simpa using h)⟩

/-! ## `pqPush` and `pqPopLast`: invariant preservation -/

theorem WF_pqPush (q : priorityQueue S) (x : pqItem S) (h : WF q)
    (hfresh : ∀ it ∈ q.items, it.s ≠ x.s) : WF (pqPush q x) := by
  constructor
  · intro s
    by_cases hsx : s = x.s
    · refine lookOK_of_some q.items.length ?_ ?_
      · show mlookup (mset q.lookups x.s q.items.length) s = _
        rw [mlookup_mset, if_pos hsx]
      · show ((q.items ++ [x]).get? q.items.length).map pqItem.s = some s
        rw [List.get?_concat_length]
        simp [hsx]
    · cases hl : mlookup q.lookups s with
      | some k =>
          obtain ⟨it, hg, hits⟩ := map_get?_some_elim (lookOK_some_elim (h.1 s) hl)
          refine lookOK_of_some k ?_ ?_
          · show mlookup (mset q.lookups x.s q.items.length) s = _
            rw [mlookup_mset, if_neg hsx]
            exact hl
          · show ((q.items ++ [x]).get? k).map pqItem.s = some s
            rw [List.get?_append (get?_isSome_lt hg), hg]
            simp [hits]
      | none =>
          have hn := lookOK_none_elim (h.1 s) hl
          refine lookOK_of_none ?_ ?_
          · show mlookup (mset q.lookups x.s q.items.length) s = _
            rw [mlookup_mset, if_neg hsx]
            exact hl
          · intro it hit
            rcases List.mem_append.1 hit with h1 | h2
            · exact hn it h1
            · rw [List.mem_singleton.1 h2]
              exact fun hc => hsx hc.symm
  · show ((q.items ++ [x]).map pqItem.s).Nodup
    rw [List.map_append]
    refine h.2.append (by simp) ?_
    intro y hy hy2
    simp only [List.map_cons, List.map_nil, List.mem_singleton] at hy2
    obtain ⟨it, hit, hits⟩ := List.mem_map.1 hy
    exact hfresh it hit (hy2 ▸ hits)

theorem pqPopLast_of_none {q : priorityQueue S} (h : q.items.getLast? = none) :
    pqPopLast q = (none, q) := by
  unfold pqPopLast
  rw [h]

theorem pqPopLast_of_some {q : priorityQueue S} {it : pqItem S}
    (h : q.items.getLast? = some it) :
    pqPopLast q = (some it, ⟨mdel q.lookups it.s, q.items.dropLast⟩) := by
  unfold pqPopLast
  rw [h]

theorem getLast?_decomp {α : Type} {l : List α} {x : α}
    (h : l.getLast? = some x) : l = l.dropLast ++ [x] := by
  have hnil : l ≠ [] := by
    intro hc
    rw [hc] at h
    exact Option.noConfusion h
  have h2 := List.getLast?_eq_getLast l hnil
  rw [h2] at h
  rw [← Option.some.inj h] at *
  exact (List.dropLast_append_getLast hnil).symm

theorem WF_pqPopLast (q : priorityQueue S) (h : WF q) : WF (pqPopLast q).2 := by
  cases hL : q.items.getLast? with
  | none => rw [pqPopLast_of_none hL]; exact h
  | some last =>
      rw [pqPopLast_of_some hL]
      have hdec : q.items = q.items.dropLast ++ [last] := getLast?_decomp hL
      have hnd : ((q.items.dropLast ++ [last]).map pqItem.s).Nodup := by
        rw [← hdec]; exact h.2
      rw [List.map_append] at hnd
      rw [List.nodup_append] at hnd
      constructor
      · intro s
        by_cases hsx : s = last.s
        · refine lookOK_of_none ?_ ?_
          · show mlookup (mdel q.lookups last.s) s = none
            rw [mlookup_mdel, if_pos hsx]
          · intro it hit his
            have hmm : it.s ∈ q.items.dropLast.map pqItem.s := List.mem_map_of_mem _ hit
            exact hnd.2.2 hmm (by simp [his, hsx])
        · cases hl : mlookup q.lookups s with
          | some k =>
              obtain ⟨it, hg, hits⟩ := map_get?_some_elim (lookOK_some_elim (h.1 s) hl)
              refine lookOK_of_some k ?_ ?_
              · show mlookup (mdel q.lookups last.s) s = _
                rw [mlookup_mdel, if_neg hsx]
                exact hl
              · show ((q.items.dropLast).get? k).map pqItem.s = some s
                rcases Nat.lt_or_ge k q.items.dropLast.length with hk | hk
                · rw [hdec, List.get?_append hk] at hg
                  rw [hg]
                  simp [hits]
                · exfalso
                  rw [hdec, List.get?_append_right hk] at hg
                  rcases Nat.eq_zero_or_pos (k - q.items.dropLast.length) with h0 | h0
                  · rw [h0] at hg
                    simp only [List.get?] at hg
                    rw [← Option.some.inj hg] at hits
                    exact hsx hits.symm
                  · have hnone : ([last] : List (pqItem S)).get? (k - q.items.dropLast.length) = none := by
                      apply List.get?_eq_none.2
                      simp only [List.length_cons, List.length_nil]
                      omega
                    rw [hnone] at hg
                    exact Option.noConfusion hg
          | none =>
              have hn := lookOK_none_elim (h.1 s) hl
              refine lookOK_of_none ?_ ?_
              · show mlookup (mdel q.lookups last.s) s = _
                rw [mlookup_mdel, if_neg hsx]
                exact hl
              · intro it hit
                exact hn it ((List.dropLast_sublist _).mem hit)
      · show ((q.items.dropLast).map pqItem.s).Nodup
        exact hnd.1

theorem heapDownF_get?_ge (f : Nat) (q : priorityQueue S) (i n m : Nat)
    (hm : n ≤ m) :
    ((heapDownF f q i n).1).items.get? m = q.items.get? m := by
  induction f generalizing q i with
  | zero => rfl
  | succ f ih =>
      unfold heapDownF
      split
      · rfl
      · rename_i hj1
        split
        · rfl
        · rename_i hless
          have hj1n : 2*i + 1 < n := by omega
          have hch : heapDownChild q i n < n := by
            unfold heapDownChild
            split
            · rename_i hc; exact hc.1
            · exact hj1n
          have hchgt : i < heapDownChild q i n := by
            unfold heapDownChild; split <;> omega
          rw [ih _ _, pqSwap_items_get?_other _ _ _ _ (by omega) (by omega)]

/-! ## Heap-level operations: invariant preservation -/

theorem WF_heapUp (q : priorityQueue S) (j : Nat) (h : WF q) : WF (heapUp q j) :=
  WF_heapUpF _ _ _ h

theorem WF_heapPush (q : priorityQueue S) (x : pqItem S) (h : WF q)
    (hfresh : ∀ it ∈ q.items, it.s ≠ x.s) : WF (heapPush q x) :=
  WF_heapUpF _ _ _ (WF_pqPush q x h hfresh)

theorem WF_heapPop (q : priorityQueue S) (h : WF q) : WF (heapPop q).2 :=
  WF_pqPopLast _ (WF_heapDownF _ _ _ _ (WF_pqSwap _ _ _ h))

theorem WF_heapRemove (q : priorityQueue S) (i : Nat) (h : WF q) :
    WF (heapRemove q i).2 := by
  unfold heapRemove
  split
  · split
    · exact WF_pqPopLast _ (WF_heapDownF _ _ _ _ (WF_pqSwap _ _ _ h))
    · exact WF_pqPopLast _ (WF_heapUpF _ _ _ (WF_heapDownF _ _ _ _ (WF_pqSwap _ _ _ h)))
  · exact WF_pqPopLast _ h

theorem contains_false_iff (q : priorityQueue S) (s : S) :
    q.contains s = false ↔ mlookup q.lookups s = none := by
  unfold priorityQueue.contains
  cases mlookup q.lookups s <;> simp

theorem contains_true_iff (q : priorityQueue S) (s : S) :
    q.contains s = true ↔ ∃ i, mlookup q.lookups s = some i := by
  unfold priorityQueue.contains
  cases mlookup q.lookups s <;> simp

theorem WF_fresh_of_contains_false (q : priorityQueue S) (s : S) (h : WF q)
    (hc : q.contains s = false) : ∀ it ∈ q.items, it.s ≠ s :=
  lookOK_none_elim (h.1 s) ((contains_false_iff q s).1 hc)

/-- The entry popped at the end of `heap.Remove(q, i0)` is the entry that
sat at index `i0`: the swap moves it to the last slot and the sifts do
not touch that slot. -/
theorem heapRemove_lookups (q : priorityQueue S) {i0 : Nat} {it0 : pqItem S}
    (hg : q.items.get? i0 = some it0) :
    ∃ m : List (S × Nat), (heapRemove q i0).2.lookups = mdel m it0.s := by
  have hi0 : i0 < q.items.length := get?_isSome_lt hg
  unfold heapRemove
  by_cases hni : pqLen q - 1 ≠ i0
  · rw [if_pos hni]
    have hn : pqLen q - 1 < q.items.length := by
      unfold pqLen
      omega
    obtain ⟨b, hb⟩ : ∃ b, q.items.get? (pqLen q - 1) = some b := by
      cases hgb : q.items.get? (pqLen q - 1) with
      | none => exact absurd (List.get?_eq_none.1 hgb) (not_le.2 hn)
      | some b => exact ⟨b, rfl⟩
    have hswap : (pqSwap q i0 (pqLen q - 1)).items.get? (pqLen q - 1) = some it0 := by
      rw [pqSwap_items_get? q hg hb (pqLen q - 1), if_pos rfl]
    set X := pqSwap q i0 (pqLen q - 1) with hX
    have hi0n : i0 < pqLen q - 1 := by
      unfold pqLen at hni ⊢
      omega
    have hdown : (heapDown X i0 (pqLen q - 1)).1.items.get? (pqLen q - 1) = some it0 := by
      unfold heapDown
      rw [heapDownF_get?_ge _ _ _ _ _ (le_refl _)]
      exact hswap
    have hlenX : X.items.length = q.items.length := pqSwap_length _ _ _
    have hlenD : (heapDown X i0 (pqLen q - 1)).1.items.length = q.items.length := by
      unfold heapDown
      rw [heapDownF_length, hlenX]
    split
    · -- moved: no up sift
      have hlast : (heapDown X i0 (pqLen q - 1)).1.items.getLast? = some it0 := by
        rw [List.getLast?_eq_get?, hlenD]
        show _ = some it0
        have : q.items.length - 1 = pqLen q - 1 := rfl
        rw [this]
        exact hdown
      rw [pqPopLast_of_some hlast]
      exact ⟨_, rfl⟩
    · -- not moved: up sift from i0
      have hup : (heapUp (heapDown X i0 (pqLen q - 1)).1 i0).items.get? (pqLen q - 1)
          = some it0 := by
        unfold heapUp
        rw [heapUpF_get?_gt _ _ _ _ hi0n]
        exact hdown
      have hlenU : (heapUp (heapDown X i0 (pqLen q - 1)).1 i0).items.length
          = q.items.length := by
        unfold heapUp
        rw [heapUpF_length, hlenD]
      have hlast : (heapUp (heapDown X i0 (pqLen q - 1)).1 i0).items.getLast?
          = some it0 := by
        rw [List.getLast?_eq_get?, hlenU]
        exact hup
      rw [pqPopLast_of_some hlast]
      exact ⟨_, rfl⟩
  · rw [if_neg hni]
    have hlast : q.items.getLast? = some it0 := by
      rw [List.getLast?_eq_get?]
      have : q.items.length - 1 = i0 := by
        unfold pqLen at hni
        omega
      rw [this]
      exact hg
    rw [pqPopLast_of_some hlast]
    exact ⟨_, rfl⟩

theorem heapRemove_contains_false (q : priorityQueue S) {i0 : Nat} {it0 : pqItem S}
    (hg : q.items.get? i0 = some it0) :
    (heapRemove q i0).2.contains it0.s = false := by
  obtain ⟨m, hm⟩ := heapRemove_lookups q hg
  rw [contains_false_iff]
  rw [hm, mlookup_mdel, if_pos rfl]

/-! ## Simulation: the lookups map matters only up to the entry for `s`
while an entry for `s` is being removed.  The sift operations read only
`items`, so two queues with equal `items` and lookups maps that agree
after deleting `s` stay related, and the final pop of `s` makes the
lookups maps literally equal. -/

theorem pqLess_congr {q1 q2 : priorityQueue S} (h : q1.items = q2.items)
    (i j : Nat) : pqLess q1 i j = pqLess q2 i j := by
  unfold pqLess
  rw [h]

theorem heapDownChild_congr {q1 q2 : priorityQueue S} (h : q1.items = q2.items)
    (i n : Nat) : heapDownChild q1 i n = heapDownChild q2 i n := by
  unfold heapDownChild
  rw [pqLess_congr h]

theorem pqSwap_sim (s : S) {q1 q2 : priorityQueue S}
    (hitems : q1.items = q2.items)
    (hlk : mdel q1.lookups s = mdel q2.lookups s) (i j : Nat) :
    (pqSwap q1 i j).items = (pqSwap q2 i j).items ∧
      mdel (pqSwap q1 i j).lookups s = mdel (pqSwap q2 i j).lookups s := by
  cases hi : q1.items.get? i with
  | none =>
      rw [pqSwap_eq_self q1 i j (Or.inl hi),
        pqSwap_eq_self q2 i j (Or.inl (hitems ▸ hi))]
      exact ⟨hitems, hlk⟩
  | some a =>
      cases hj : q1.items.get? j with
      | none =>
          rw [pqSwap_eq_self q1 i j (Or.inr hj),
            pqSwap_eq_self q2 i j (Or.inr (hitems ▸ hj))]
          exact ⟨hitems, hlk⟩
      | some b =>
          have hi2 : q2.items.get? i = some a := hitems ▸ hi
          have hj2 : q2.items.get? j = some b := hitems ▸ hj
          constructor
          · show (pqSwap q1 i j).items = (pqSwap q2 i j).items
            unfold pqSwap
            rw [hi, hj, hi2, hj2, hitems]
          · rw [pqSwap_lookups q1 hi hj, pqSwap_lookups q2 hi2 hj2]
            exact mdel_mset_congr s a.s j (mdel_mset_congr s b.s i hlk)

theorem heapUpF_sim (f : Nat) (s : S) {q1 q2 : priorityQueue S}
    (hitems : q1.items = q2.items)
    (hlk : mdel q1.lookups s = mdel q2.lookups s) (j : Nat) :
    (heapUpF f q1 j).items = (heapUpF f q2 j).items ∧
      mdel (heapUpF f q1 j).lookups s = mdel (heapUpF f q2 j).lookups s := by
  induction f generalizing q1 q2 j with
  | zero => exact ⟨hitems, hlk⟩
  | succ f ih =>
      unfold heapUpF
      rw [pqLess_congr hitems]
      split
      · exact ⟨hitems, hlk⟩
      · obtain ⟨h1, h2⟩ := pqSwap_sim s hitems hlk ((j - 1) / 2) j
        exact ih h1 h2 _

theorem heapDownF_sim (f : Nat) (s : S) {q1 q2 : priorityQueue S}
    (hitems : q1.items = q2.items)
    (hlk : mdel q1.lookups s = mdel q2.lookups s) (i n : Nat) :
    (heapDownF f q1 i n).1.items = (heapDownF f q2 i n).1.items ∧
      mdel (heapDownF f q1 i n).1.lookups s = mdel (heapDownF f q2 i n).1.lookups s ∧
      (heapDownF f q1 i n).2 = (heapDownF f q2 i n).2 := by
  induction f generalizing q1 q2 i with
  | zero => exact ⟨hitems, hlk, rfl⟩
  | succ f ih =>
      unfold heapDownF
      rw [heapDownChild_congr hitems, pqLess_congr hitems]
      split
      · exact ⟨hitems, hlk, rfl⟩
      · split
        · exact ⟨hitems, hlk, rfl⟩
        · obtain ⟨h1, h2⟩ := pqSwap_sim s hitems hlk i (heapDownChild q2 i n)
          exact ih h1 h2 _

theorem pqPopLast_sim_eq (s : S) {q1 q2 : priorityQueue S}
    (hitems : q1.items = q2.items)
    (hlk : mdel q1.lookups s = mdel q2.lookups s)
    {it : pqItem S} (hlast : q1.items.getLast? = some it) (hits : it.s = s) :
    (pqPopLast q1).2 = (pqPopLast q2).2 := by
  have hlast2 : q2.items.getLast? = some it := hitems ▸ hlast
  rw [pqPopLast_of_some hlast, pqPopLast_of_some hlast2]
  show priorityQueue.mk _ _ = priorityQueue.mk _ _
  rw [hitems, hits, hlk]

/-- `heap.Remove` at the index of the (unique, by position `hg`) entry
for `s` yields literally equal queues from lookups maps that agree away
from `s`. -/
theorem heapRemove_sim (s : S) (q1 q2 : priorityQueue S)
    (hitems : q1.items = q2.items)
    (hlk : mdel q1.lookups s = mdel q2.lookups s) {i0 : Nat} {it0 : pqItem S}
    (hg : q1.items.get? i0 = some it0) (hits : it0.s = s) :
    (heapRemove q1 i0).2 = (heapRemove q2 i0).2 := by
  have hi0 : i0 < q1.items.length := get?_isSome_lt hg
  have hlen : pqLen q1 = pqLen q2 := by
    unfold pqLen
    rw [hitems]
  unfold heapRemove
  rw [← hlen]
  by_cases hni : pqLen q1 - 1 ≠ i0
  · rw [if_pos hni, if_pos hni]
    have hn : pqLen q1 - 1 < q1.items.length := by
      unfold pqLen
      omega
    obtain ⟨b, hb⟩ : ∃ b, q1.items.get? (pqLen q1 - 1) = some b := by
      cases hgb : q1.items.get? (pqLen q1 - 1) with
      | none => exact absurd (List.get?_eq_none.1 hgb) (not_le.2 hn)
      | some b => exact ⟨b, rfl⟩
    obtain ⟨hs1, hs2⟩ := pqSwap_sim s hitems hlk i0 (pqLen q1 - 1)
    obtain ⟨hd1, hd2, hd3⟩ := heapDownF_sim (pqLen q1 - 1) s hs1 hs2 i0 (pqLen q1 - 1)
    have hswap : (pqSwap q1 i0 (pqLen q1 - 1)).items.get? (pqLen q1 - 1) = some it0 := by
      rw [pqSwap_items_get? q1 hg hb (pqLen q1 - 1), if_pos rfl]
    have hi0n : i0 < pqLen q1 - 1 := by
      unfold pqLen at hni ⊢
      omega
    have hdown : (heapDown (pqSwap q1 i0 (pqLen q1 - 1)) i0 (pqLen q1 - 1)).1.items.get?
        (pqLen q1 - 1) = some it0 := by
      unfold heapDown
      rw [heapDownF_get?_ge _ _ _ _ _ (le_refl _)]
      exact hswap
    have hlenD : (heapDown (pqSwap q1 i0 (pqLen q1 - 1)) i0 (pqLen q1 - 1)).1.items.length
        = q1.items.length := by
      unfold heapDown
      rw [heapDownF_length, pqSwap_length]
    have hflag : (heapDown (pqSwap q1 i0 (pqLen q1 - 1)) i0 (pqLen q1 - 1)).2
        = (heapDown (pqSwap q2 i0 (pqLen q1 - 1)) i0 (pqLen q1 - 1)).2 := by
      unfold heapDown
      rw [hd3]
    rw [← hflag]
    split
    · -- moved: pop directly after the down sift
      have hlastq : (heapDown (pqSwap q1 i0 (pqLen q1 - 1)) i0 (pqLen q1 - 1)).1.items.getLast?
          = some it0 := by
        rw [List.getLast?_eq_get?, hlenD]
        exact hdown
      exact pqPopLast_sim_eq s hd1 hd2 hlastq hits
    · -- not moved: an up sift precedes the pop
      obtain ⟨hu1, hu2⟩ := heapUpF_sim (i0 + 1) s hd1 hd2 i0
      have hup : (heapUp (heapDown (pqSwap q1 i0 (pqLen q1 - 1)) i0 (pqLen q1 - 1)).1
          i0).items.get? (pqLen q1 - 1) = some it0 := by
        unfold heapUp
        rw [heapUpF_get?_gt _ _ _ _ hi0n]
        exact hdown
      have hlenU : (heapUp (heapDown (pqSwap q1 i0 (pqLen q1 - 1)) i0 (pqLen q1 - 1)).1
          i0).items.length = q1.items.length := by
        unfold heapUp
        rw [heapUpF_length, hlenD]
      have hlastq : (heapUp (heapDown (pqSwap q1 i0 (pqLen q1 - 1)) i0 (pqLen q1 - 1)).1
          i0).items.getLast? = some it0 := by
        rw [List.getLast?_eq_get?, hlenU]
        exact hup
      exact pqPopLast_sim_eq s hu1 hu2 hlastq hits
  · rw [if_neg hni, if_neg hni]
    have hlastq : q1.items.getLast? = some it0 := by
      rw [List.getLast?_eq_get?]
      have he : q1.items.length - 1 = i0 := by
        unfold pqLen at hni
        omega
      rw [he]
      exact hg
    exact pqPopLast_sim_eq s hitems hlk hlastq hits

/-! ## API-level queue lemmas -/

theorem contains_heapPush (q : priorityQueue S) (x : pqItem S) :
    (heapPush q x).contains x.s = true := by
  apply heapUpF_contains
  unfold priorityQueue.contains pqPush
  show (mlookup (mset q.lookups x.s q.items.length) x.s).isSome = true
  rw [mlookup_mset, if_pos rfl]
  rfl

theorem contains_insert (q : priorityQueue S) (s : S) (k : key) :
    (q.insert s k).contains s = true :=
  contains_heapPush q ⟨s, k⟩

theorem WF_insert (q : priorityQueue S) (s : S) (k : key) (hWF : WF q)
    (hc : q.contains s = false) : WF (q.insert s k) :=
  WF_heapPush q ⟨s, k⟩ hWF (WF_fresh_of_contains_false q s hWF hc)

theorem remove_eq_heapRemove (q : priorityQueue S) (s : S) (hWF : WF q)
    {i0 : Nat} (hl : mlookup q.lookups s = some i0) :
    q.remove s = (heapRemove q i0).2 := by
  obtain ⟨it0, hg, hits⟩ := map_get?_some_elim (lookOK_some_elim (hWF.1 s) hl)
  unfold priorityQueue.remove
  rw [hl]
  simp only [Option.getD_some]
  exact heapRemove_sim s { lookups := mdel q.lookups s, items := q.items } q rfl
    (mdel_mdel_self q.lookups s) hg hits

theorem WF_remove (q : priorityQueue S) (s : S) (hWF : WF q)
    (hc : q.contains s = true) : WF (q.remove s) := by
  obtain ⟨i0, hl⟩ := (contains_true_iff q s).1 hc
  rw [remove_eq_heapRemove q s hWF hl]
  exact WF_heapRemove q i0 hWF

theorem contains_remove_false (q : priorityQueue S) (s : S) (hWF : WF q)
    (hc : q.contains s = true) : (q.remove s).contains s = false := by
  obtain ⟨i0, hl⟩ := (contains_true_iff q s).1 hc
  obtain ⟨it0, hg, hits⟩ := map_get?_some_elim (lookOK_some_elim (hWF.1 s) hl)
  rw [remove_eq_heapRemove q s hWF hl]
  rw [← hits]
  exact heapRemove_contains_false q hg

theorem update_noop (q : priorityQueue S) (s : S) (k : key) {i0 : Nat}
    {it0 : pqItem S} (hl : mlookup q.lookups s = some i0)
    (hg : q.items.get? i0 = some it0) (hcmp : it0.k.compare k = 0) :
    q.update s k = q := by
  unfold priorityQueue.update
  rw [hl]
  simp only [Option.getD_some]
  rw [hg]
  show (if it0.k.compare k ≠ 0 then _ else q) = q
  rw [if_neg (fun hne => hne hcmp)]

theorem update_rebuild (q : priorityQueue S) (s : S) (k : key) {i0 : Nat}
    {it0 : pqItem S} (hl : mlookup q.lookups s = some i0)
    (hg : q.items.get? i0 = some it0) (hcmp : it0.k.compare k ≠ 0) :
    q.update s k = heapPush (heapRemove q i0).2 ⟨s, k⟩ := by
  unfold priorityQueue.update
  rw [hl]
  simp only [Option.getD_some]
  rw [hg]
  show (if it0.k.compare k ≠ 0 then _ else q) = _
  rw [if_pos hcmp]

theorem update_eq_remove_insert (q : priorityQueue S) (s : S) (k : key)
    (hWF : WF q) {i0 : Nat} {it0 : pqItem S}
    (hl : mlookup q.lookups s = some i0) (hg : q.items.get? i0 = some it0)
    (hcmp : it0.k.compare k ≠ 0) :
    q.update s k = (q.remove s).insert s k := by
  rw [update_rebuild q s k hl hg hcmp]
  show _ = heapPush (q.remove s) ⟨s, k⟩
  rw [remove_eq_heapRemove q s hWF hl]

theorem WF_update (q : priorityQueue S) (s : S) (k : key) (hWF : WF q)
    (hc : q.contains s = true) : WF (q.update s k) := by
  obtain ⟨i0, hl⟩ := (contains_true_iff q s).1 hc
  obtain ⟨it0, hg, hits⟩ := map_get?_some_elim (lookOK_some_elim (hWF.1 s) hl)
  by_cases hcmp : it0.k.compare k = 0
  · rw [update_noop q s k hl hg hcmp]
    exact hWF
  · rw [update_rebuild q s k hl hg hcmp]
    refine WF_heapPush _ _ (WF_heapRemove q i0 hWF) ?_
    have hcf : (heapRemove q i0).2.contains s = false := by
      rw [← hits]
      exact heapRemove_contains_false q hg
    exact WF_fresh_of_contains_false _ s (WF_heapRemove q i0 hWF) hcf

theorem contains_update_true (q : priorityQueue S) (s : S) (k : key)
    (hc : q.contains s = true) : (q.update s k).contains s = true := by
  unfold priorityQueue.update
  split
  · split
    · exact contains_heapPush _ ⟨s, k⟩
    · exact hc
  · exact hc

theorem WF_pop (q : priorityQueue S) (hWF : WF q) : WF (q.pop).2 :=
  WF_heapPop q hWF

theorem WF_newPriorityQueue : WF (newPriorityQueue S) := by
  constructor
  · intro s
    exact lookOK_of_none rfl (by intro it hit; exact absurd hit (List.not_mem_nil it))
  · exact List.nodup_nil

/-! ## The heap-order property and `topKey` -/

theorem key.compare_congr {a b c : key} (h : a.compare b = 0) :
    a.compare c = b.compare c := by
  obtain ⟨h1, h2⟩ := (key.compare_eq_zero_iff a b).1 h
  unfold key.compare
  rw [h1, h2]

theorem key.compare_self_ne_neg_one (a : key) : a.compare a ≠ -1 := by
  intro h
  rcases (key.compare_eq_neg_one_iff a a).1 h with h1 | ⟨_, h1⟩ <;>
    exact lt_irrefl _ h1

theorem topKey_of_nil (q : priorityQueue S) (h : q.items = []) :
    q.topKey = ⟨⊤, ⊤⟩ := by
  unfold priorityQueue.topKey
  rw [h]
  rfl

theorem topKey_of_head {q : priorityQueue S} {it0 : pqItem S}
    (h : q.items.get? 0 = some it0) : q.topKey = it0.k := by
  unfold priorityQueue.topKey
  rw [← List.get?_zero, h]
  have hlen : q.items.length ≠ 0 := by
    intro hc
    rw [List.get?_eq_none.2 (by omega)] at h
    exact Option.noConfusion h
  rw [if_neg hlen]

/-- Under the heap-order invariant the root's key compares `≤` every
queued key. -/
theorem topKey_min (q : priorityQueue S) (hheap : IsHeap q)
    {m : Nat} {it : pqItem S} (hm : q.items.get? m = some it) :
    it.k.compare q.topKey ≠ -1 := by
  obtain ⟨it0, h0⟩ : ∃ it0, q.items.get? 0 = some it0 := by
    cases h0 : q.items.get? 0 with
    | none =>
        have := List.get?_eq_none.1 h0
        have hmlt := get?_isSome_lt hm
        omega
    | some it0 => exact ⟨it0, rfl⟩
  rw [topKey_of_head h0]
  induction m using Nat.strong_induction_on generalizing it with
  | _ m ih =>
      rcases Nat.eq_zero_or_pos m with hm0 | hmpos
      · subst hm0
        rw [hm] at h0
        rw [Option.some.inj h0]
        exact key.compare_self_ne_neg_one it0.k
      · have hmlt := get?_isSome_lt hm
        have hplt : (m - 1) / 2 < m := by omega
        obtain ⟨itp, hp⟩ : ∃ itp, q.items.get? ((m - 1) / 2) = some itp := by
          cases hp : q.items.get? ((m - 1) / 2) with
          | none =>
              have := List.get?_eq_none.1 hp
              omega
          | some itp => exact ⟨itp, rfl⟩
        have hless := hheap m hmlt (by omega)
        unfold pqLess at hless
        rw [hm, hp] at hless
        have hb : (it.k.compare itp.k == -1) = false := hless
        have hnp : it.k.compare itp.k ≠ -1 := by
          intro hc
          rw [hc] at hb
          exact Bool.noConfusion hb
        have ihp : itp.k.compare it0.k ≠ -1 := ih _ hplt hp
        intro hc
        rcases key.compare_total it.k itp.k with h1 | h1 | h1
        · exact hnp h1
        · exact ihp ((key.compare_congr h1).symm.trans hc)
        · exact ihp (key.compare_trans ((key.compare_antisymm itp.k it.k).1 h1) hc)

/-! ## Planner-level lemmas -/

theorem updateVertex_contains (p : Planner S) (v : S) (hWF : WF p.u) :
    ((p.updateVertex v).u).contains v = !float64Equals (p.g.get v) (p.rhs.get v) := by
  unfold Planner.updateVertex
  by_cases heq : float64Equals (p.g.get v) (p.rhs.get v) = true
  · by_cases hcont : p.u.contains v = true
    · rw [if_neg (by rw [heq, hcont]; decide), if_neg (by rw [heq, hcont]; decide),
        if_pos (by rw [heq, hcont]; decide)]
      show (p.u.remove v).contains v = !float64Equals (p.g.get v) (p.rhs.get v)
      rw [contains_remove_false p.u v hWF hcont, heq]
      decide
    · have hcf : p.u.contains v = false := Bool.eq_false_iff.2 hcont
      rw [if_neg (by rw [heq, hcf]; decide), if_neg (by rw [heq, hcf]; decide),
        if_neg (by rw [heq, hcf]; decide)]
      rw [hcf, heq]
      decide
  · have hef : float64Equals (p.g.get v) (p.rhs.get v) = false :=
      Bool.eq_false_iff.2 heq
    by_cases hcont : p.u.contains v = true
    · rw [if_pos (by rw [hef, hcont]; decide)]
      show (p.u.update v (p.calcKey v)).contains v = _
      rw [contains_update_true p.u v _ hcont, hef]
      decide
    · have hcf : p.u.contains v = false := Bool.eq_false_iff.2 hcont
      rw [if_neg (by rw [hef, hcf]; decide), if_pos (by rw [hef, hcf]; decide)]
      show (p.u.insert v (p.calcKey v)).contains v = _
      rw [contains_insert p.u v _, hef]
      decide

theorem csp_of_guard_false (fuel : Nat) (p : Planner S) (h : p.cspGuard = false) :
    Planner.computeShortestPath fuel p = p := by
  cases fuel with
  | zero => rfl
  | succ fuel =>
      unfold Planner.computeShortestPath
      rw [h]
      rfl

theorem Plan_snd (fuel : Nat) (p : Planner S) :
    (Planner.Plan fuel p).2 = Planner.computeShortestPath fuel p := rfl

theorem Plan_idempotent (fuel : Nat) (p : Planner S)
    (h : (Planner.computeShortestPath fuel p).cspGuard = false) :
    (Planner.Plan fuel (Planner.Plan fuel p).2).1 = (Planner.Plan fuel p).1 := by
  rw [Plan_snd]
  unfold Planner.Plan
  rw [csp_of_guard_false fuel _ h]

theorem planFold_fst (p : Planner S) (st : S) (l : List S) (acc : EV × Option S) :
    (l.foldl (fun (acc : EV × Option S) sp =>
        if p.d.Cost st sp + p.g.get sp < acc.1
        then (p.d.Cost st sp + p.g.get sp, some sp) else acc) acc).1
      = l.foldl (fun m sp =>
        if p.d.Cost st sp + p.g.get sp < m
        then p.d.Cost st sp + p.g.get sp else m) acc.1 := by
  induction l generalizing acc with
  | nil => rfl
  | cons sp rest ih =>
      show _ = rest.foldl _ (if p.d.Cost st sp + p.g.get sp < acc.1 then _ else acc.1)
      by_cases hlt : p.d.Cost st sp + p.g.get sp < acc.1
      · rw [if_pos hlt]
        have := ih (p.d.Cost st sp + p.g.get sp, some sp)
        simpa [hlt] using this
      · rw [if_neg hlt]
        have := ih acc
        simpa [hlt] using this

theorem planFold_spec (p : Planner S) (st : S) (l : List S) (acc : EV × Option S)
    (hacc : acc.1 ≠ ⊤ → ∃ s', acc.2 = some s' ∧ acc.1 = p.d.Cost st s' + p.g.get s') :
    (l.foldl (fun (acc : EV × Option S) sp =>
        if p.d.Cost st sp + p.g.get sp < acc.1
        then (p.d.Cost st sp + p.g.get sp, some sp) else acc) acc).1 ≠ ⊤ →
      ∃ s', (l.foldl (fun (acc : EV × Option S) sp =>
        if p.d.Cost st sp + p.g.get sp < acc.1
        then (p.d.Cost st sp + p.g.get sp, some sp) else acc) acc).2 = some s' ∧
        (l.foldl (fun (acc : EV × Option S) sp =>
        if p.d.Cost st sp + p.g.get sp < acc.1
        then (p.d.Cost st sp + p.g.get sp, some sp) else acc) acc).1
          = p.d.Cost st s' + p.g.get s' := by
  induction l generalizing acc with
  | nil => exact hacc
  | cons sp rest ih =>
      rw [List.foldl_cons]
      by_cases hlt : p.d.Cost st sp + p.g.get sp < acc.1
      · rw [if_pos hlt]
        exact ih (p.d.Cost st sp + p.g.get sp, some sp) (fun _ => ⟨sp, rfl, rfl⟩)
      · rw [if_neg hlt]
        exact ih acc hacc

theorem plan_no_path (fuel : Nat) (p : Planner S) (hfuel : 1 ≤ fuel)
    (hgoal : (Planner.computeShortestPath fuel p).rhs.get
      (Planner.computeShortestPath fuel p).goal ≠ ⊤)
    (hstart : (Planner.computeShortestPath fuel p).rhs.get
      (Planner.computeShortestPath fuel p).start = ⊤) :
    (Planner.Plan fuel p).1 = some none := by
  cases fuel with
  | zero => exact absurd hfuel (by omega)
  | succ f =>
      show (Planner.computeShortestPath (f+1) p).planLoop (f+1)
        (Planner.computeShortestPath (f+1) p).start
        [(Planner.computeShortestPath (f+1) p).start] = some none
      unfold Planner.planLoop
      rw [if_neg (fun hc : (Planner.computeShortestPath (f+1) p).start
            = (Planner.computeShortestPath (f+1) p).goal => hgoal (hc ▸ hstart)),
        if_pos hstart]

theorem cspGuard_false_elim (p : Planner S) (h : p.cspGuard = false) :
    p.u.isEmpty = true ∨
      (p.u.topKey.compare (p.calcKey p.start) ≠ -1 ∧
        ¬ (p.rhs.get p.start > p.g.get p.start)) := by
  unfold Planner.cspGuard at h
  by_cases he : p.u.isEmpty = true
  · exact Or.inl he
  · right
    rw [Bool.eq_false_iff.2 he] at h
    simp only [Bool.not_false, Bool.true_and, Bool.or_eq_false_iff,
      beq_eq_false_iff_ne, decide_eq_false_iff_not] at h
    exact h

/-! ## Heap-order bridges -/

theorem key.compare_lt_iff (a b : key) :
    a.compare b = -1 ↔ keyval a < keyval b := by
  rw [key.compare_eq_neg_one_iff]
  unfold keyval
  rw [Prod.Lex.lt_iff]

theorem get?_of_lt {α : Type} (l : List α) {k : Nat} (h : k < l.length) :
    ∃ x, l.get? k = some x := by
  cases hg : l.get? k with
  | none =>
      have := List.get?_eq_none.1 hg
      omega
  | some x => exact ⟨x, rfl⟩

theorem pqLess_true_iff (q : priorityQueue S) {i j : Nat}
    (hi : i < q.items.length) (hj : j < q.items.length) :
    pqLess q i j = true ↔ keyval (kAt q i) < keyval (kAt q j) := by
  obtain ⟨a, ha⟩ := get?_of_lt q.items hi
  obtain ⟨b, hb⟩ := get?_of_lt q.items hj
  unfold pqLess kAt
  rw [ha, hb]
  show (a.k.compare b.k == -1) = true ↔ _
  rw [beq_iff_eq, key.compare_lt_iff]

theorem pqLess_false_iff (q : priorityQueue S) {i j : Nat}
    (hi : i < q.items.length) (hj : j < q.items.length) :
    pqLess q i j = false ↔ ¬ (keyval (kAt q i) < keyval (kAt q j)) := by
  rw [← pqLess_true_iff q hi hj]
  cases pqLess q i j <;> simp

theorem parentIdx_lt {j : Nat} (h : j ≠ 0) : parentIdx j < j := by
  unfold parentIdx
  omega

theorem IsHeap_iff_heapBelow (q : priorityQueue S) :
    IsHeap q ↔ HeapBelow q q.items.length := by
  unfold IsHeap HeapBelow
  constructor
  · intro h j hj hj0
    have hp : parentIdx j < q.items.length := lt_trans (parentIdx_lt hj0) hj
    exact (pqLess_false_iff q hj hp).1 (h j hj hj0)
  · intro h j hj hj0
    have hp : parentIdx j < q.items.length := lt_trans (parentIdx_lt hj0) hj
    exact (pqLess_false_iff q hj hp).2 (h j hj hj0)

theorem swapIdx_left (i j : Nat) : swapIdx i j i = j := by
  unfold swapIdx
  split_ifs <;> omega

theorem swapIdx_right (i j : Nat) : swapIdx i j j = i := by
  unfold swapIdx
  rw [if_pos rfl]

theorem swapIdx_other {i j k : Nat} (h1 : k ≠ i) (h2 : k ≠ j) :
    swapIdx i j k = k := by
  unfold swapIdx
  rw [if_neg h2, if_neg h1]

theorem kAt_pqSwap (q : priorityQueue S) {i j : Nat}
    (hi : i < q.items.length) (hj : j < q.items.length) (k : Nat) :
    kAt (pqSwap q i j) k = kAt q (swapIdx i j k) := by
  obtain ⟨a, ha⟩ := get?_of_lt q.items hi
  obtain ⟨b, hb⟩ := get?_of_lt q.items hj
  unfold kAt
  rw [pqSwap_items_get?_swapIdx q ha hb k]

theorem kAt_pqPush_lt (q : priorityQueue S) (x : pqItem S) {k : Nat}
    (h : k < q.items.length) : kAt (pqPush q x) k = kAt q k := by
  unfold kAt pqPush
  show (match (q.items ++ [x]).get? k with | some it => it.k | none => _) = _
  rw [List.get?_append h]

theorem kAt_pqPush_self (q : priorityQueue S) (x : pqItem S) :
    kAt (pqPush q x) q.items.length = x.k := by
  unfold kAt pqPush
  show (match (q.items ++ [x]).get? q.items.length with | some it => it.k | none => _) = _
  rw [List.get?_concat_length]

theorem kAt_congr_get? {q q' : priorityQueue S} {k : Nat}
    (h : q'.items.get? k = q.items.get? k) : kAt q' k = kAt q k := by
  unfold kAt
  rw [h]

/-! ## Sift-up restores heap order -/

theorem heapUpF_spec (f : Nat) (q : priorityQueue S) (n j : Nat)
    (hn : n ≤ q.items.length) (hjn : j < n) (hf : j + 1 ≤ f)
    (hinv : HeapExceptUp q n j) :
    HeapBelow (heapUpF f q j) n := by
  induction f generalizing q j with
  | zero => omega
  | succ f ih =>
      unfold heapUpF
      by_cases hstop : (j - 1) / 2 = j ∨ ¬ pqLess q j ((j - 1) / 2) = true
      · rw [if_pos hstop]
        intro k hk hk0
        by_cases hkj : k = j
        · subst hkj
          rcases hstop with h0 | hnl
          · exact absurd (by omega : k = 0) hk0
          · have hp : parentIdx k < n := lt_trans (parentIdx_lt hk0) hk
            exact (pqLess_false_iff q (lt_of_lt_of_le hk hn)
              (lt_of_lt_of_le hp hn)).1 (Bool.eq_false_iff.2 hnl)
        · exact hinv.1 k hk hk0 hkj
      · rw [if_neg hstop]
        push_neg at hstop
        obtain ⟨hne, hless⟩ := hstop
        have hj0 : j ≠ 0 := by
          intro hc
          subst hc
          exact hne rfl
        have hij : (j - 1) / 2 < j := parentIdx_lt hj0
        have hiL : (j - 1) / 2 < q.items.length :=
          lt_of_lt_of_le (lt_trans hij hjn) hn
        have hjL : j < q.items.length := lt_of_lt_of_le hjn hn
        have hσ : ∀ k, kAt (pqSwap q ((j - 1) / 2) j) k
            = kAt q (swapIdx ((j - 1) / 2) j k) := kAt_pqSwap q hiL hjL
        have hlt : keyval (kAt q j) < keyval (kAt q ((j - 1) / 2)) :=
          (pqLess_true_iff q hjL hiL).1 hless
        have hlen' : (pqSwap q ((j - 1) / 2) j).items.length = q.items.length :=
          pqSwap_length q _ j
        refine ih (pqSwap q ((j - 1) / 2) j) ((j - 1) / 2)
          (by rw [hlen']; exact hn) (lt_trans hij hjn) (by omega) ⟨?_, ?_⟩
        · -- heap order except at the parent position
          intro k hk hk0 hki
          rw [hσ k, hσ (parentIdx k)]
          by_cases hkj : k = j
          · subst hkj
            have hpk : parentIdx k = (k - 1) / 2 := rfl
            rw [hpk, swapIdx_left, swapIdx_right]
            exact fun hc => absurd hlt (lt_asymm hc)
          · have hσk : swapIdx ((j - 1) / 2) j k = k := swapIdx_other hki hkj
            rw [hσk]
            by_cases hpkj : parentIdx k = j
            · rw [hpkj, swapIdx_right]
              have h2 := hinv.2 k hk hpkj hj0
              exact fun hc => h2 hc
            · by_cases hpki : parentIdx k = (j - 1) / 2
              · rw [hpki, swapIdx_left]
                have h1 := hinv.1 k hk hk0 hkj
                rw [(show parentIdx k = (j - 1) / 2 from hpki)] at h1
                exact fun hc => h1 (lt_trans hc hlt)
              · rw [swapIdx_other hpki hpkj]
                exact hinv.1 k hk hk0 hkj
        · -- the grandparent bound at the new exception
          intro c hc hpc hi0
          rw [hσ c, hσ (parentIdx ((j - 1) / 2))]
          have hpi_lt : parentIdx ((j - 1) / 2) < (j - 1) / 2 := parentIdx_lt hi0
          have hpii : parentIdx ((j - 1) / 2) ≠ (j - 1) / 2 := by omega
          have hpij : parentIdx ((j - 1) / 2) ≠ j := by omega
          rw [swapIdx_other hpii hpij]
          have h1i := hinv.1 ((j - 1) / 2) (lt_trans hij hjn) hi0 (by omega)
          by_cases hcj : c = j
          · subst hcj
            rw [swapIdx_right]
            intro hc2
            exact h1i hc2
          · have hpc2 : (c - 1) / 2 = (j - 1) / 2 := hpc
            have hc0 : c ≠ 0 := by omega
            have hcio : c ≠ (j - 1) / 2 := by omega
            rw [swapIdx_other hcio hcj]
            have h1c := hinv.1 c hc hc0 hcj
            rw [hpc] at h1c
            intro hlt2
            exact h1c (lt_of_lt_of_le hlt2 (not_lt.1 h1i))


/-! ## Sift-down restores heap order -/

theorem heapDownF_idx_ge (f : Nat) (q : priorityQueue S) (i n : Nat) :
    i ≤ (heapDownF f q i n).2 := by
  induction f generalizing q i with
  | zero => exact le_refl i
  | succ f ih =>
      unfold heapDownF
      split
      · exact le_refl i
      · split
        · exact le_refl i
        · refine le_trans ?_ (ih (pqSwap q i (heapDownChild q i n)) (heapDownChild q i n))
          unfold heapDownChild
          split <;> omega

theorem pqPopLast_length (q : priorityQueue S) :
    (pqPopLast q).2.items.length = q.items.length - 1 := by
  cases hL : q.items.getLast? with
  | none =>
      rw [pqPopLast_of_none hL]
      have : q.items = [] := by
        cases hq : q.items with
        | nil => rfl
        | cons a l =>
            rw [hq, List.getLast?_eq_get?] at hL
            obtain ⟨x, hx⟩ := get?_of_lt (a :: l) (by simp : (a :: l).length - 1 < (a :: l).length)
            rw [hx] at hL
            exact Option.noConfusion hL
      rw [this]
      rfl
  | some last =>
      rw [pqPopLast_of_some hL]
      show q.items.dropLast.length = _
      rw [List.length_dropLast]

theorem kAt_pqPopLast (q : priorityQueue S) {k : Nat}
    (hk : k < q.items.length - 1) : kAt (pqPopLast q).2 k = kAt q k := by
  cases hL : q.items.getLast? with
  | none => rw [pqPopLast_of_none hL]
  | some last =>
      rw [pqPopLast_of_some hL]
      have hdec := getLast?_decomp hL
      unfold kAt
      show (match q.items.dropLast.get? k with | some it => it.k | none => _) = _
      have hlen : q.items.dropLast.length = q.items.length - 1 := List.length_dropLast _
      have : q.items.get? k = q.items.dropLast.get? k := by
        conv_lhs => rw [hdec]
        exact List.get?_append (by omega)
      rw [← this]

theorem heapDownChild_spec (q : priorityQueue S) {i n : Nat}
    (h1 : 2*i + 1 < n) (hn : n ≤ q.items.length) :
    heapDownChild q i n < n ∧ parentIdx (heapDownChild q i n) = i ∧
      ∀ c, c < n → c ≠ 0 → parentIdx c = i →
        ¬ (keyval (kAt q c) < keyval (kAt q (heapDownChild q i n))) := by
  by_cases hch : 2*i + 2 < n ∧ pqLess q (2*i + 2) (2*i + 1) = true
  · have hval : heapDownChild q i n = 2*i + 2 := by
      unfold heapDownChild
      rw [if_pos hch]
    rw [hval]
    refine ⟨hch.1, by unfold parentIdx; omega, ?_⟩
    intro c hc hc0 hpc
    have hpc' : (c - 1) / 2 = i := hpc
    have : c = 2*i + 1 ∨ c = 2*i + 2 := by omega
    rcases this with rfl | rfl
    · have := (pqLess_true_iff q (lt_of_lt_of_le hch.1 hn)
        (lt_of_lt_of_le h1 hn)).1 hch.2
      exact fun hcon => absurd this (lt_asymm hcon)
    · exact lt_irrefl _
  · have hval : heapDownChild q i n = 2*i + 1 := by
      unfold heapDownChild
      rw [if_neg hch]
    rw [hval]
    refine ⟨h1, by unfold parentIdx; omega, ?_⟩
    intro c hc hc0 hpc
    have hpc' : (c - 1) / 2 = i := hpc
    have : c = 2*i + 1 ∨ c = 2*i + 2 := by omega
    rcases this with rfl | rfl
    · exact lt_irrefl _
    · have hfa : pqLess q (2*i + 2) (2*i + 1) = false := by
        cases hb : pqLess q (2*i + 2) (2*i + 1) with
        | false => rfl
        | true => exact absurd ⟨hc, hb⟩ hch
      exact (pqLess_false_iff q (lt_of_lt_of_le hc hn) (lt_of_lt_of_le h1 hn)).1 hfa

theorem heapDownF_spec (f : Nat) (q : priorityQueue S) (n i : Nat)
    (hn : n ≤ q.items.length) (hf : n - i ≤ f)
    (hinv : HeapDownInv q n i) :
    HeapBelow (heapDownF f q i n).1 n := by
  induction f generalizing q i with
  | zero =>
      intro k hk hk0
      have hpk : parentIdx k < k := parentIdx_lt hk0
      exact hinv.1 k hk hk0 (by omega)
  | succ f ih =>
      unfold heapDownF
      by_cases hstop1 : 2*i + 1 ≥ n
      · rw [if_pos hstop1]
        intro k hk hk0
        refine hinv.1 k hk hk0 ?_
        intro hpk
        have hpk' : (k - 1) / 2 = i := hpk
        omega
      · rw [if_neg hstop1]
        obtain ⟨hchn, hchp, hchmin⟩ := heapDownChild_spec q (show 2*i+1 < n by omega) hn
        have hbnd : 2*i + 1 ≤ heapDownChild q i n := by
          unfold heapDownChild
          split <;> omega
        by_cases hstop2 : ¬ pqLess q (heapDownChild q i n) i = true
        · rw [if_pos hstop2]
          intro k hk hk0
          by_cases hpk : parentIdx k = i
          · have hle1 : ¬ (keyval (kAt q (heapDownChild q i n)) < keyval (kAt q i)) :=
              (pqLess_false_iff q (lt_of_lt_of_le hchn hn)
                (lt_of_lt_of_le (show i < n by omega) hn)).1 (Bool.eq_false_iff.2 hstop2)
            have hle2 := hchmin k hk hk0 hpk
            rw [hpk]
            exact fun hcon => hle2 (lt_of_lt_of_le hcon (not_lt.1 hle1))
          · exact hinv.1 k hk hk0 hpk
        · rw [if_neg hstop2]
          push_neg at hstop2
          have hiL : i < q.items.length := lt_of_lt_of_le (show i < n by omega) hn
          have hjL : heapDownChild q i n < q.items.length := lt_of_lt_of_le hchn hn
          have hij : i ≠ heapDownChild q i n := by omega
          have hσ : ∀ k, kAt (pqSwap q i (heapDownChild q i n)) k
              = kAt q (swapIdx i (heapDownChild q i n) k) := kAt_pqSwap q hiL hjL
          have hlt : keyval (kAt q (heapDownChild q i n)) < keyval (kAt q i) :=
            (pqLess_true_iff q hjL hiL).1 hstop2
          have hlen' : (pqSwap q i (heapDownChild q i n)).items.length
              = q.items.length := pqSwap_length q _ _
          refine ih (pqSwap q i (heapDownChild q i n)) (heapDownChild q i n)
            (by rw [hlen']; exact hn) (by omega) ⟨?_, ?_⟩
          · intro k hk hk0 hpkj
            rw [hσ k, hσ (parentIdx k)]
            by_cases hkj : k = heapDownChild q i n
            · subst hkj
              rw [swapIdx_right, hchp, swapIdx_left]
              exact fun hcon => absurd hlt (lt_asymm hcon)
            · by_cases hki : k = i
              · subst hki
                rw [swapIdx_left]
                have hpi : parentIdx k ≠ k := by
                  have := parentIdx_lt hk0
                  omega
                have hpij2 : parentIdx k ≠ heapDownChild q k n := by
                  have hpk : parentIdx (heapDownChild q k n) = k := hchp
                  have := parentIdx_lt hk0
                  intro hcon
                  rw [hcon] at this
                  omega
                rw [swapIdx_other hpi hpij2]
                exact hinv.2 (heapDownChild q k n) hchn hchp hk0
              · rw [swapIdx_other hki hkj]
                by_cases hpki : parentIdx k = i
                · rw [hpki, swapIdx_left]
                  exact hchmin k hk hk0 hpki
                · rw [swapIdx_other hpki hpkj]
                  exact hinv.1 k hk hk0 hpki
          · intro c hc hpc hj0
            rw [hσ c, hσ (parentIdx (heapDownChild q i n)), hchp, swapIdx_left]
            have hpc' : (c - 1) / 2 = heapDownChild q i n := hpc
            have hcj : c ≠ heapDownChild q i n := by omega
            have hci : c ≠ i := by omega
            rw [swapIdx_other hci hcj]
            have hc0 : c ≠ 0 := by omega
            have := hinv.1 c hc hc0 (by
              rw [hpc]
              omega)
            rw [hpc] at this
            exact this


/-! ## Heap order is preserved by every queue operation -/

theorem HeapBelow_mono (q : priorityQueue S) {n m : Nat} (h : n ≤ m)
    (hb : HeapBelow q m) : HeapBelow q n :=
  fun j hj hj0 => hb j (lt_of_lt_of_le hj h) hj0

theorem kAt_pqSwap_other (q : priorityQueue S) {i j : Nat}
    (hi : i < q.items.length) (hj : j < q.items.length) {k : Nat}
    (h1 : k ≠ i) (h2 : k ≠ j) : kAt (pqSwap q i j) k = kAt q k := by
  rw [kAt_pqSwap q hi hj k, swapIdx_other h1 h2]

theorem kAt_pqSwap_left (q : priorityQueue S) {i j : Nat}
    (hi : i < q.items.length) (hj : j < q.items.length) :
    kAt (pqSwap q i j) i = kAt q j := by
  rw [kAt_pqSwap q hi hj i, swapIdx_left]

theorem IsHeap_pqPopLast_of_heapBelow (q : priorityQueue S)
    (h : HeapBelow q (q.items.length - 1)) : IsHeap (pqPopLast q).2 := by
  rw [IsHeap_iff_heapBelow]
  intro j hj hj0
  rw [pqPopLast_length] at hj
  have hp : parentIdx j < q.items.length - 1 := lt_trans (parentIdx_lt hj0) hj
  rw [kAt_pqPopLast q hj, kAt_pqPopLast q hp]
  exact h j hj hj0

theorem IsHeap_heapPush (q : priorityQueue S) (x : pqItem S) (h : IsHeap q) :
    IsHeap (heapPush q x) := by
  have hlen : (pqPush q x).items.length = q.items.length + 1 := by
    show (q.items ++ [x]).length = _
    simp
  have hb : HeapBelow q q.items.length := (IsHeap_iff_heapBelow q).1 h
  have hinv : HeapExceptUp (pqPush q x) (q.items.length + 1) q.items.length := by
    constructor
    · intro k hk hk0 hkL
      have hkL' : k < q.items.length := by omega
      have hp : parentIdx k < q.items.length := lt_trans (parentIdx_lt hk0) hkL'
      rw [kAt_pqPush_lt q x hkL', kAt_pqPush_lt q x hp]
      exact hb k hkL' hk0
    · intro c hc hpc hL0
      have hpc' : (c - 1) / 2 = q.items.length := hpc
      omega
  have hspec := heapUpF_spec (q.items.length + 1) (pqPush q x)
      (q.items.length + 1) q.items.length (le_of_eq hlen.symm)
      (by omega) (le_refl _) hinv
  rw [IsHeap_iff_heapBelow]
  have hglen : (heapPush q x).items.length = q.items.length + 1 := by
    show (heapUp (pqPush q x) (pqLen (pqPush q x) - 1)).items.length = _
    unfold heapUp
    rw [heapUpF_length, hlen]
  rw [hglen]
  show HeapBelow (heapUp (pqPush q x) (pqLen (pqPush q x) - 1)) _
  have hidx : pqLen (pqPush q x) - 1 = q.items.length := by
    show (pqPush q x).items.length - 1 = _
    rw [hlen]
    omega
  rw [hidx]
  unfold heapUp
  exact hspec

theorem heapUp_id (q : priorityQueue S) (i : Nat)
    (h : parentIdx i = i ∨ pqLess q i (parentIdx i) = false) :
    heapUp q i = q := by
  show (if (i - 1) / 2 = i ∨ ¬ pqLess q i ((i - 1) / 2) then q
        else heapUpF i (pqSwap q ((i - 1) / 2) i) ((i - 1) / 2)) = q
  rcases h with h | h
  · exact if_pos (Or.inl h)
  · refine if_pos (Or.inr fun hc => ?_)
    have hc' : pqLess q i (parentIdx i) = true := hc
    rw [h] at hc'
    exact Bool.noConfusion hc'

theorem heapDownF_id (f : Nat) (q : priorityQueue S) (i n : Nat)
    (h : 2*i + 1 ≥ n ∨ pqLess q (heapDownChild q i n) i = false) :
    heapDownF f q i n = (q, i) := by
  cases f with
  | zero => rfl
  | succ f =>
      show (if 2*i + 1 ≥ n then (q, i)
            else if ¬ pqLess q (heapDownChild q i n) i then (q, i)
            else heapDownF f (pqSwap q i (heapDownChild q i n)) (heapDownChild q i n) n)
          = (q, i)
      rcases h with h | h
      · rw [if_pos h]
      · by_cases h1 : 2*i + 1 ≥ n
        · rw [if_pos h1]
        · rw [if_neg h1, if_pos]
          intro hc
          have hc' : pqLess q (heapDownChild q i n) i = true := hc
          rw [h] at hc'
          exact Bool.noConfusion hc'

theorem IsHeap_heapPop (q : priorityQueue S) (h : IsHeap q) :
    IsHeap (heapPop q).2 := by
  have hb : HeapBelow q q.items.length := (IsHeap_iff_heapBelow q).1 h
  show IsHeap (pqPopLast (heapDown (pqSwap q 0 (pqLen q - 1)) 0 (pqLen q - 1)).1).2
  have hpl : pqLen q = q.items.length := rfl
  rw [hpl]
  by_cases hL : q.items.length = 0
  · have hsw : pqSwap q 0 (q.items.length - 1) = q := by
      refine pqSwap_eq_self q _ _ (Or.inl ?_)
      exact List.get?_eq_none.2 (by omega)
    rw [hsw, hL]
    show IsHeap (pqPopLast (heapDownF 0 q 0 0).1).2
    exact IsHeap_pqPopLast_of_heapBelow q (HeapBelow_mono q (Nat.sub_le _ _) hb)
  · have h0 : 0 < q.items.length := by omega
    have hlast : q.items.length - 1 < q.items.length := by omega
    have hswlen : (pqSwap q 0 (q.items.length - 1)).items.length = q.items.length :=
      pqSwap_length q _ _
    have hinv : HeapDownInv (pqSwap q 0 (q.items.length - 1)) (q.items.length - 1) 0 := by
      constructor
      · intro k hk hk0 hpk
        have hkL : k < q.items.length - 1 := hk
        have hpkk : parentIdx k < k := parentIdx_lt hk0
        rw [kAt_pqSwap_other q h0 hlast hk0 (by omega),
          kAt_pqSwap_other q h0 hlast hpk (by omega)]
        exact hb k (by omega) hk0
      · intro c hc hpc h00
        exact absurd rfl h00
    have hdown := heapDownF_spec (q.items.length - 1)
        (pqSwap q 0 (q.items.length - 1)) (q.items.length - 1) 0
        (by omega) (by omega) hinv
    show IsHeap (pqPopLast
      (heapDownF (q.items.length - 1) (pqSwap q 0 (q.items.length - 1)) 0
        (q.items.length - 1)).1).2
    refine IsHeap_pqPopLast_of_heapBelow _ ?_
    rw [heapDownF_length, hswlen]
    exact hdown

theorem IsHeap_heapRemove (q : priorityQueue S) (i : Nat) (h : IsHeap q) :
    IsHeap (heapRemove q i).2 := by
  have hb : HeapBelow q q.items.length := (IsHeap_iff_heapBelow q).1 h
  have hpl : pqLen q = q.items.length := rfl
  by_cases hne : pqLen q - 1 ≠ i
  · have hrem : heapRemove q i = pqPopLast
        (if (heapDown (pqSwap q i (pqLen q - 1)) i (pqLen q - 1)).2
         then (heapDown (pqSwap q i (pqLen q - 1)) i (pqLen q - 1)).1
         else heapUp (heapDown (pqSwap q i (pqLen q - 1)) i (pqLen q - 1)).1 i) := by
      unfold heapRemove
      rw [if_pos hne]
    rw [hrem, hpl] at *
    by_cases hrange : q.items.length ≤ i
    · -- out-of-range index: every stage is the identity
      have hsw : pqSwap q i (q.items.length - 1) = q := by
        refine pqSwap_eq_self q _ _ (Or.inl ?_)
        exact List.get?_eq_none.2 (by omega)
      have hi0 : i ≠ 0 := by omega
      have hid : heapDownF (q.items.length - 1) q i (q.items.length - 1) = (q, i) :=
        heapDownF_id _ q i _ (Or.inl (by omega))
      have h1 : (heapDown q i (q.items.length - 1)).1 = q := by
        show (heapDownF (q.items.length - 1) q i (q.items.length - 1)).1 = q
        rw [hid]
      have h2 : (heapDown q i (q.items.length - 1)).2 = false := by
        show decide ((heapDownF (q.items.length - 1) q i (q.items.length - 1)).2 > i) = false
        rw [hid]
        exact decide_eq_false (lt_irrefl i)
      have hless : pqLess q i (parentIdx i) = false := by
        unfold pqLess
        rw [List.get?_eq_none.2 (by omega : q.items.length ≤ i)]
      rw [hsw, h2, if_neg Bool.false_ne_true, h1, heapUp_id q i (Or.inr hless)]
      exact IsHeap_pqPopLast_of_heapBelow q (HeapBelow_mono q (Nat.sub_le _ _) hb)
    · have hiL : i < q.items.length - 1 := by omega
      have hL2 : 1 ≤ q.items.length - 1 := by omega
      have hi' : i < q.items.length := by omega
      have hlast : q.items.length - 1 < q.items.length := by omega
      have hswlen : (pqSwap q i (q.items.length - 1)).items.length = q.items.length :=
        pqSwap_length q _ _
      by_cases hup : i ≠ 0 ∧ keyval (kAt (pqSwap q i (q.items.length - 1)) i)
          < keyval (kAt (pqSwap q i (q.items.length - 1)) (parentIdx i))
      · -- the moved-up entry undercuts its new parent: `down` is a no-op
        -- and `up` restores the order
        have hi0 := hup.1
        have hpi : parentIdx i < i := parentIdx_lt hi0
        have hvi : kAt (pqSwap q i (q.items.length - 1)) i = kAt q (q.items.length - 1) :=
          kAt_pqSwap_left q hi' hlast
        have hpp : kAt (pqSwap q i (q.items.length - 1)) (parentIdx i)
            = kAt q (parentIdx i) :=
          kAt_pqSwap_other q hi' hlast (by omega) (by omega)
        have hbi := hb i hi' hi0
        have hid : heapDownF (q.items.length - 1) (pqSwap q i (q.items.length - 1)) i
            (q.items.length - 1) = (pqSwap q i (q.items.length - 1), i) := by
          refine heapDownF_id _ _ i _ ?_
          by_cases h1 : 2*i + 1 ≥ q.items.length - 1
          · exact Or.inl h1
          · right
            obtain ⟨hchn, hchp, hchmin⟩ := heapDownChild_spec
                (pqSwap q i (q.items.length - 1))
                (show 2*i + 1 < q.items.length - 1 by omega) (by omega)
            have hch0 : heapDownChild (pqSwap q i (q.items.length - 1)) i
                (q.items.length - 1) ≠ 0 := by
              intro hc
              rw [hc] at hchp
              exact hi0 hchp.symm
            have hchi : i < heapDownChild (pqSwap q i (q.items.length - 1)) i
                (q.items.length - 1) := by
              have := parentIdx_lt hch0
              omega
            have hchv : kAt (pqSwap q i (q.items.length - 1))
                (heapDownChild (pqSwap q i (q.items.length - 1)) i (q.items.length - 1))
                = kAt q (heapDownChild (pqSwap q i (q.items.length - 1)) i
                    (q.items.length - 1)) :=
              kAt_pqSwap_other q hi' hlast (by omega) (by omega)
            refine (pqLess_false_iff _ (by omega) (by omega)).2 ?_
            rw [hchv, hvi]
            have hc1 := hb (heapDownChild (pqSwap q i (q.items.length - 1)) i
                (q.items.length - 1)) (by omega) hch0
            rw [hchp] at hc1
            rw [hvi, hpp] at hup
            exact not_lt.2 (le_of_lt (lt_of_lt_of_le hup.2
              (le_trans (not_lt.1 hbi) (not_lt.1 hc1))))
        have h1 : (heapDown (pqSwap q i (q.items.length - 1)) i (q.items.length - 1)).1
            = pqSwap q i (q.items.length - 1) := by
          show (heapDownF (q.items.length - 1) (pqSwap q i (q.items.length - 1)) i
            (q.items.length - 1)).1 = _
          rw [hid]
        have h2 : (heapDown (pqSwap q i (q.items.length - 1)) i (q.items.length - 1)).2
            = false := by
          show decide ((heapDownF (q.items.length - 1) (pqSwap q i (q.items.length - 1)) i
            (q.items.length - 1)).2 > i) = false
          rw [hid]
          exact decide_eq_false (lt_irrefl i)
        have hinvUp : HeapExceptUp (pqSwap q i (q.items.length - 1))
            (q.items.length - 1) i := by
          constructor
          · intro k hk hk0 hki
            have hkk : parentIdx k < k := parentIdx_lt hk0
            rw [kAt_pqSwap_other q hi' hlast hki (by omega)]
            by_cases hpk : parentIdx k = i
            · rw [hpk, hvi]
              have hc1 := hb k (by omega) hk0
              rw [hpk] at hc1
              rw [hvi, hpp] at hup
              exact not_lt.2 (le_of_lt (lt_of_lt_of_le hup.2
                (le_trans (not_lt.1 hbi) (not_lt.1 hc1))))
            · rw [kAt_pqSwap_other q hi' hlast hpk (by omega)]
              exact hb k (by omega) hk0
          · intro c hc hpc hi0'
            have hc0 : c ≠ 0 := by
              intro hc'
              rw [hc'] at hpc
              exact hi0 hpc.symm
            have hci : i < c := by
              have := parentIdx_lt hc0
              omega
            rw [kAt_pqSwap_other q hi' hlast (by omega) (by omega), hpp]
            have hc1 := hb c (by omega) hc0
            rw [hpc] at hc1
            exact not_lt.2 (le_trans (not_lt.1 hbi) (not_lt.1 hc1))
        have hupspec := heapUpF_spec (i + 1) (pqSwap q i (q.items.length - 1))
            (q.items.length - 1) i (by omega) hiL (le_refl _) hinvUp
        rw [h2, if_neg Bool.false_ne_true, h1]
        refine IsHeap_pqPopLast_of_heapBelow _ ?_
        show HeapBelow (heapUpF (i + 1) (pqSwap q i (q.items.length - 1)) i)
          ((heapUpF (i + 1) (pqSwap q i (q.items.length - 1)) i).items.length - 1)
        rw [heapUpF_length, hswlen]
        exact hupspec
      · -- the moved entry respects its parent: `down` restores the order
        -- and any trailing `up` is a no-op
        have hinvDown : HeapDownInv (pqSwap q i (q.items.length - 1))
            (q.items.length - 1) i := by
          constructor
          · intro k hk hk0 hpk
            have hkk : parentIdx k < k := parentIdx_lt hk0
            by_cases hki : k = i
            · subst hki
              by_cases hk00 : parentIdx k = k
              · rw [hk00]
                exact lt_irrefl _
              · have : parentIdx k < k := parentIdx_lt hk0
                exact fun hcon => hup ⟨hk0, hcon⟩
            · rw [kAt_pqSwap_other q hi' hlast hki (by omega),
                kAt_pqSwap_other q hi' hlast hpk (by omega)]
              exact hb k (by omega) hk0
          · intro c hc hpc hi0
            have hc0 : c ≠ 0 := by
              intro hc'
              rw [hc'] at hpc
              exact hi0 hpc.symm
            have hci : i < c := by
              have := parentIdx_lt hc0
              omega
            have hpp : kAt (pqSwap q i (q.items.length - 1)) (parentIdx i)
                = kAt q (parentIdx i) :=
              kAt_pqSwap_other q hi' hlast
                (by have := parentIdx_lt hi0; omega)
                (by have := parentIdx_lt hi0; omega)
            rw [kAt_pqSwap_other q hi' hlast (by omega) (by omega), hpp]
            have hc1 := hb c (by omega) hc0
            rw [hpc] at hc1
            have hbi := hb i hi' hi0
            exact not_lt.2 (le_trans (not_lt.1 hbi) (not_lt.1 hc1))
        have hdown := heapDownF_spec (q.items.length - 1)
            (pqSwap q i (q.items.length - 1)) (q.items.length - 1) i
            (by omega) (by omega) hinvDown
        have hdlen : (heapDown (pqSwap q i (q.items.length - 1)) i
            (q.items.length - 1)).1.items.length = q.items.length := by
          show (heapDownF (q.items.length - 1) (pqSwap q i (q.items.length - 1)) i
            (q.items.length - 1)).1.items.length = _
          rw [heapDownF_length, hswlen]
        have hdb : HeapBelow (heapDown (pqSwap q i (q.items.length - 1)) i
            (q.items.length - 1)).1 (q.items.length - 1) := hdown
        cases hfl : (heapDown (pqSwap q i (q.items.length - 1)) i (q.items.length - 1)).2 with
        | true =>
            rw [if_pos rfl]
            refine IsHeap_pqPopLast_of_heapBelow _ ?_
            rw [hdlen]
            exact hdb
        | false =>
            rw [if_neg Bool.false_ne_true]
            have hupid : heapUp (heapDown (pqSwap q i (q.items.length - 1)) i
                (q.items.length - 1)).1 i = (heapDown (pqSwap q i (q.items.length - 1)) i
                (q.items.length - 1)).1 := by
              refine heapUp_id _ i ?_
              by_cases hi0 : i = 0
              · subst hi0
                exact Or.inl rfl
              · right
                refine (pqLess_false_iff _ (by omega) ?_).2 ?_
                · have := parentIdx_lt hi0
                  omega
                · exact hdb i hiL hi0
            rw [hupid]
            refine IsHeap_pqPopLast_of_heapBelow _ ?_
            rw [hdlen]
            exact hdb
  · have hrem : heapRemove q i = pqPopLast q := by
      unfold heapRemove
      rw [if_neg (not_not_intro (of_not_not hne))]
    rw [hrem]
    exact IsHeap_pqPopLast_of_heapBelow q (HeapBelow_mono q (Nat.sub_le _ _) hb)

theorem IsHeap_newPriorityQueue : IsHeap (newPriorityQueue S) := by
  intro j hj hj0
  exact absurd hj (by simp [newPriorityQueue])

theorem IsHeap_insert (q : priorityQueue S) (s : S) (k : key) (h : IsHeap q) :
    IsHeap (q.insert s k) :=
  IsHeap_heapPush q ⟨s, k⟩ h

theorem IsHeap_pop (q : priorityQueue S) (h : IsHeap q) :
    IsHeap (q.pop).2 :=
  IsHeap_heapPop q h

theorem IsHeap_update (q : priorityQueue S) (s : S) (k : key) (h : IsHeap q) :
    IsHeap (q.update s k) := by
  unfold priorityQueue.update
  cases q.items.get? ((mlookup q.lookups s).getD 0) with
  | none => exact h
  | some it =>
      show IsHeap (if it.k.compare k ≠ 0
        then heapPush (heapRemove q ((mlookup q.lookups s).getD 0)).2 ⟨s, k⟩ else q)
      by_cases hk : it.k.compare k ≠ 0
      · rw [if_pos hk]
        exact IsHeap_heapPush _ ⟨s, k⟩ (IsHeap_heapRemove q _ h)
      · rw [if_neg hk]
        exact h

theorem IsHeap_remove (q : priorityQueue S) (s : S) (h : IsHeap q) :
    IsHeap (q.remove s) := by
  show IsHeap (heapRemove { lookups := mdel q.lookups s, items := q.items }
    ((mlookup q.lookups s).getD 0)).2
  refine IsHeap_heapRemove _ _ ?_
  intro j hj hj0
  exact h j hj hj0


/-! ## The repair loop's exit state: `rhs(start)` is the shortest cost -/

theorem minRhsFold_le (p : Planner S) (st : S) (l : List S) (a0 : EV) :
    (∀ x ∈ l, l.foldl (fun m sp =>
        if p.d.Cost st sp + p.g.get sp < m
        then p.d.Cost st sp + p.g.get sp else m) a0 ≤ p.d.Cost st x + p.g.get x) ∧
    l.foldl (fun m sp =>
        if p.d.Cost st sp + p.g.get sp < m
        then p.d.Cost st sp + p.g.get sp else m) a0 ≤ a0 := by
  induction l generalizing a0 with
  | nil => exact ⟨fun x h => absurd h (List.not_mem_nil x), le_refl _⟩
  | cons sp rest ih =>
      rw [List.foldl_cons]
      have ha1 : (if p.d.Cost st sp + p.g.get sp < a0
          then p.d.Cost st sp + p.g.get sp else a0) ≤ a0 := by
        by_cases hc : p.d.Cost st sp + p.g.get sp < a0
        · rw [if_pos hc]
          exact le_of_lt hc
        · rw [if_neg hc]
      have ha2 : (if p.d.Cost st sp + p.g.get sp < a0
          then p.d.Cost st sp + p.g.get sp else a0)
          ≤ p.d.Cost st sp + p.g.get sp := by
        by_cases hc : p.d.Cost st sp + p.g.get sp < a0
        · rw [if_pos hc]
        · rw [if_neg hc]
          exact le_of_not_lt hc
      obtain ⟨ihm, iha⟩ := ih (if p.d.Cost st sp + p.g.get sp < a0
          then p.d.Cost st sp + p.g.get sp else a0)
      refine ⟨?_, le_trans iha ha1⟩
      intro x hx
      rcases List.mem_cons.1 hx with rfl | hx'
      · exact le_trans iha ha2
      · exact ihm x hx'

theorem planFold_mem (p : Planner S) (st : S) (l : List S)
    (acc : EV × Option S) (s' : S)
    (h : (l.foldl (fun (acc : EV × Option S) sp =>
        if p.d.Cost st sp + p.g.get sp < acc.1
        then (p.d.Cost st sp + p.g.get sp, some sp) else acc) acc).2 = some s') :
    acc.2 = some s' ∨ s' ∈ l := by
  induction l generalizing acc with
  | nil => exact Or.inl h
  | cons sp rest ih =>
      rw [List.foldl_cons] at h
      by_cases hlt : p.d.Cost st sp + p.g.get sp < acc.1
      · rw [if_pos hlt] at h
        rcases ih (p.d.Cost st sp + p.g.get sp, some sp) h with h2 | h2
        · refine Or.inr ?_
          have hsp : sp = s' := Option.some.inj h2
          rw [← hsp]
          exact List.mem_cons_self sp rest
        · exact Or.inr (List.mem_cons_of_mem sp h2)
      · rw [if_neg hlt] at h
        rcases ih acc h with h2 | h2
        · exact Or.inl h2
        · exact Or.inr (List.mem_cons_of_mem sp h2)

theorem keyval_lt_of_le_of_lt {a b : key} (h1 : a.A ≤ b.A) (h2 : a.B < b.B) :
    keyval a < keyval b := by
  unfold keyval
  rw [Prod.Lex.lt_iff]
  rcases lt_or_eq_of_le h1 with h | h
  · exact Or.inl h
  · exact Or.inr ⟨h, h2⟩

theorem keyval_lt_of_lt {a b : key} (h1 : a.A < b.A) :
    keyval a < keyval b := by
  unfold keyval
  rw [Prod.Lex.lt_iff]
  exact Or.inl h1

theorem specPathCost_nonneg (d : Data S) (hc : ∀ a b, (0 : EV) ≤ d.Cost a b) :
    ∀ l, (0 : EV) ≤ specPathCost d l
  | [] => le_refl 0
  | [_] => le_refl 0
  | a :: b :: r => by
      show (0 : EV) ≤ d.Cost a b + specPathCost d (b :: r)
      have hrec := specPathCost_nonneg d hc (b :: r)
      calc (0 : EV) = 0 + 0 := (add_zero 0).symm
        _ ≤ d.Cost a b + specPathCost d (b :: r) := add_le_add (hc a b) hrec

theorem specPathCost_append (d : Data S) :
    ∀ (l : List S) (st s' : S), l.getLast? = some st →
      specPathCost d (l ++ [s']) = specPathCost d l + d.Cost st s'
  | [], st, s', h => absurd h (by simp)
  | [a], st, s', h => by
      have hst : a = st := by
        rw [List.getLast?_singleton] at h
        exact Option.some.inj h
      show d.Cost a s' + specPathCost d [s'] = specPathCost d [a] + d.Cost st s'
      rw [hst]
      show d.Cost st s' + 0 = 0 + d.Cost st s'
      rw [add_zero, zero_add]
  | a :: b :: r, st, s', h => by
      have h' : (b :: r).getLast? = some st := by
        rw [List.getLast?_cons_cons] at h
        exact h
      show d.Cost a b + specPathCost d ((b :: r) ++ [s'])
        = d.Cost a b + specPathCost d (b :: r) + d.Cost st s'
      rw [specPathCost_append d (b :: r) st s' h', add_assoc]

/-- `calcKey(start)` at an exit state where the start is not
underconsistent (static run: `km = 0`, zero self-distance): both
components are `rhs(start)`. -/
theorem calcKey_start_eq (p : Planner S) (hkm : p.km = 0)
    (hH0 : p.d.Dist p.start p.start = 0)
    (hse : p.rhs.get p.start ≤ p.g.get p.start) :
    p.calcKey p.start = ⟨p.rhs.get p.start, p.rhs.get p.start⟩ := by
  unfold Planner.calcKey
  rw [min_eq_right hse, hH0, add_zero, hkm, add_zero]

/-- When the repair loop has exited (guard false) and the program
invariants hold (bookkeeping `WF`, heap order, the frontier invariant
and accurate queued keys), every locally inconsistent vertex's key is at
least `calcKey(start)`, and the start is not underconsistent. -/
theorem cspExit_key_bound (p : Planner S) (hWF : WF p.u) (hheap : IsHeap p.u)
    (hfr : ∀ v, p.u.contains v = true ↔ ¬ p.g.get v = p.rhs.get v)
    (hkeys : ∀ it ∈ p.u.items, it.k = p.calcKey it.s)
    (hguard : p.cspGuard = false) :
    (∀ v, ¬ p.g.get v = p.rhs.get v →
      ¬ keyval (p.calcKey v) < keyval (p.calcKey p.start)) ∧
    p.rhs.get p.start ≤ p.g.get p.start := by
  rcases cspGuard_false_elim p hguard with hemp | ⟨htop, hstart⟩
  · have hnil : p.u.lookups = [] := by
      have h0 : p.u.lookups.length = 0 := by
        have hb := hemp
        unfold priorityQueue.isEmpty at hb
        exact beq_iff_eq.1 hb
      exact List.length_eq_zero.1 h0
    have hcons : ∀ v, p.g.get v = p.rhs.get v := by
      intro v
      by_contra hv
      have hc := (hfr v).2 hv
      unfold priorityQueue.contains at hc
      rw [hnil] at hc
      exact Bool.noConfusion hc
    exact ⟨fun v hv => absurd (hcons v) hv, le_of_eq (hcons p.start).symm⟩
  · refine ⟨?_, not_lt.1 hstart⟩
    intro v hv
    have hc := (hfr v).2 hv
    obtain ⟨i, hi⟩ := (contains_true_iff p.u v).1 hc
    have hok := lookOK_some_elim (hWF.1 v) hi
    obtain ⟨it, hit, hits⟩ := Option.map_eq_some'.1 hok
    have hmem : it ∈ p.u.items := List.get?_mem hit
    have hkv : it.k = p.calcKey v := by rw [hkeys it hmem, hits]
    have h1 : ¬ keyval it.k < keyval p.u.topKey := by
      rw [← key.compare_lt_iff]
      exact topKey_min p.u hheap hit
    have h2 : ¬ keyval p.u.topKey < keyval (p.calcKey p.start) := by
      rw [← key.compare_lt_iff]
      exact htop
    rw [← hkv]
    exact not_lt.2 (le_trans (not_lt.1 h2) (not_lt.1 h1))

/-- The greedy walk at a repair-loop exit state: starting from a vertex
whose `rhs` plus heuristic distance is within `rhs(start)` (as holds at
the start itself), the successor the `Plan` fold picks must be
consistent — an inconsistent one would carry a key strictly below
`calcKey(start)`, contradicting the exit condition — so the walk traces
a real path whose cost accounts exactly for `rhs`, reaching the goal
once the fuel covers `rhs(start)/δ` steps. -/
theorem cspExit_descend (p : Planner S) (δ : ℚ) (hδ : 0 < δ)
    (hcost : ∀ a b, ((δ : ℚ) : EV) ≤ p.d.Cost a b)
    (hng : ∀ v, ¬ v = p.goal → p.rhs.get v = minRhsVal p v)
    (hgoal0 : p.rhs.get p.goal = 0)
    (hnonneg : ∀ v, (0 : EV) ≤ p.g.get v)
    (hdist : ∀ v, (0 : EV) ≤ p.d.Dist p.start v)
    (hkm : p.km = 0)
    (hH0 : p.d.Dist p.start p.start = 0)
    (hHtri : ∀ a b, b ∈ p.d.Succ a →
      p.d.Dist p.start b ≤ p.d.Dist p.start a + p.d.Cost a b)
    (hineq : ∀ v, ¬ p.g.get v = p.rhs.get v →
      ¬ keyval (p.calcKey v) < keyval (p.calcKey p.start))
    (hse : p.rhs.get p.start ≤ p.g.get p.start) :
    ∀ (n : Nat) (st : S) (path : List S), path.getLast? = some st →
      specChain p.d path →
      p.rhs.get st + p.d.Dist p.start st ≤ p.rhs.get p.start →
      p.rhs.get st ≤ (((n : ℚ) * δ : ℚ) : EV) →
      ∃ path', p.planLoop (n + 1) st path = some (some path') ∧
        path'.getLast? = some p.goal ∧ specChain p.d path' ∧
        path'.head? = path.head? ∧
        specPathCost p.d path' = specPathCost p.d path + p.rhs.get st := by
  intro n
  induction n with
  | zero =>
      intro st path hpath hchain hub hr
      by_cases hgoal : st = p.goal
      · refine ⟨path, ?_, hgoal ▸ hpath, hchain, rfl, ?_⟩
        · unfold Planner.planLoop
          rw [if_pos hgoal]
        · rw [hgoal, hgoal0, add_zero]
      · exfalso
        have hfin : p.rhs.get st ≠ ⊤ := ne_top_of_le_ne_top WithTop.coe_ne_top hr
        have hfst := planFold_fst p st (p.d.Succ st) (⊤, none)
        have hval : ((p.d.Succ st).foldl (fun (acc : EV × Option S) sp =>
            if p.d.Cost st sp + p.g.get sp < acc.1
            then (p.d.Cost st sp + p.g.get sp, some sp) else acc) (⊤, none)).1
            = p.rhs.get st := by
          rw [hfst, hng st hgoal]
          rfl
        obtain ⟨s', hs2, hs1⟩ := planFold_spec p st (p.d.Succ st) (⊤, none)
          (fun hc => absurd rfl hc) (by rw [hval]; exact hfin)
        have heq : p.d.Cost st s' + p.g.get s' = p.rhs.get st := by
          rw [← hs1, hval]
        have h1 : ((δ : ℚ) : EV) ≤ p.rhs.get st := by
          calc ((δ : ℚ) : EV) = ((δ : ℚ) : EV) + 0 := (add_zero _).symm
            _ ≤ p.d.Cost st s' + p.g.get s' := add_le_add (hcost st s') (hnonneg s')
            _ = p.rhs.get st := heq
        have h2 : ((δ : ℚ) : EV) ≤ ((0 : ℚ) : EV) := by
          refine le_trans h1 (le_trans hr ?_)
          norm_num
        rw [WithTop.coe_le_coe] at h2
        exact absurd (lt_of_lt_of_le hδ h2) (lt_irrefl 0)
  | succ n ih =>
      intro st path hpath hchain hub hr
      by_cases hgoal : st = p.goal
      · refine ⟨path, ?_, hgoal ▸ hpath, hchain, rfl, ?_⟩
        · unfold Planner.planLoop
          rw [if_pos hgoal]
        · rw [hgoal, hgoal0, add_zero]
      · have hfin : p.rhs.get st ≠ ⊤ := ne_top_of_le_ne_top WithTop.coe_ne_top hr
        have hfst := planFold_fst p st (p.d.Succ st) (⊤, none)
        have hval : ((p.d.Succ st).foldl (fun (acc : EV × Option S) sp =>
            if p.d.Cost st sp + p.g.get sp < acc.1
            then (p.d.Cost st sp + p.g.get sp, some sp) else acc) (⊤, none)).1
            = p.rhs.get st := by
          rw [hfst, hng st hgoal]
          rfl
        obtain ⟨s', hs2, hs1⟩ := planFold_spec p st (p.d.Succ st) (⊤, none)
          (fun hc => absurd rfl hc) (by rw [hval]; exact hfin)
        have heq : p.d.Cost st s' + p.g.get s' = p.rhs.get st := by
          rw [← hs1, hval]
        have hmem : s' ∈ p.d.Succ st := by
          rcases planFold_mem p st (p.d.Succ st) (⊤, none) s' hs2 with h2 | h2
          · exact Option.noConfusion h2
          · exact h2
        have hsum_fin : p.d.Cost st s' + p.g.get s' ≠ ⊤ := by
          rw [heq]
          exact hfin
        obtain ⟨hcfin, hgfin⟩ := WithTop.add_ne_top.1 hsum_fin
        have hgd : p.g.get s' + p.d.Dist p.start s' ≤ p.rhs.get p.start := by
          calc p.g.get s' + p.d.Dist p.start s'
              ≤ p.g.get s' + (p.d.Dist p.start st + p.d.Cost st s') :=
                add_le_add_left (hHtri st s' hmem) _
            _ = p.rhs.get st + p.d.Dist p.start st := by
                rw [add_comm (p.d.Dist p.start st) (p.d.Cost st s'), ← add_assoc,
                  add_comm (p.g.get s') (p.d.Cost st s'), heq]
            _ ≤ p.rhs.get p.start := hub
        have hrst_le : p.rhs.get st ≤ p.rhs.get p.start :=
          le_trans (le_add_of_nonneg_right (hdist st)) hub
        have hgs_lt : p.g.get s' < p.rhs.get p.start := by
          obtain ⟨r, hrg⟩ := WithTop.ne_top_iff_exists.1 hgfin
          have hstep : p.g.get s' + ((δ : ℚ) : EV) ≤ p.rhs.get st := by
            calc p.g.get s' + ((δ : ℚ) : EV)
                = ((δ : ℚ) : EV) + p.g.get s' := add_comm _ _
              _ ≤ p.d.Cost st s' + p.g.get s' := add_le_add_right (hcost st s') _
              _ = p.rhs.get st := heq
          have hlt : p.g.get s' < p.g.get s' + ((δ : ℚ) : EV) := by
            rw [← hrg, ← WithTop.coe_add, WithTop.coe_lt_coe]
            exact lt_add_of_pos_right r hδ
          exact lt_of_lt_of_le hlt (le_trans hstep hrst_le)
        have hcons' : p.g.get s' = p.rhs.get s' := by
          by_contra hne
          refine hineq s' hne ?_
          rw [calcKey_start_eq p hkm hH0 hse]
          refine keyval_lt_of_le_of_lt ?_ ?_
          · show min (p.g.get s') (p.rhs.get s') + p.d.Dist p.start s' + p.km
              ≤ p.rhs.get p.start
            rw [hkm, add_zero]
            exact le_trans (add_le_add_right (min_le_left _ _) _) hgd
          · show min (p.g.get s') (p.rhs.get s') < p.rhs.get p.start
            exact lt_of_le_of_lt (min_le_left _ _) hgs_lt
        have hub' : p.rhs.get s' + p.d.Dist p.start s' ≤ p.rhs.get p.start := by
          rw [← hcons']
          exact hgd
        have hr' : p.rhs.get s' ≤ (((n : ℚ) * δ : ℚ) : EV) := by
          have hsum : ((((n : ℚ) + 1) * δ : ℚ) : EV)
              = ((δ : ℚ) : EV) + (((n : ℚ) * δ : ℚ) : EV) := by
            rw [← WithTop.coe_add]
            congr 1
            ring
          have hch : ((δ : ℚ) : EV) + p.rhs.get s'
              ≤ ((δ : ℚ) : EV) + (((n : ℚ) * δ : ℚ) : EV) := by
            have hds : ((δ : ℚ) : EV) + p.rhs.get s' ≤ p.rhs.get st := by
              rw [← hcons', ← heq]
              exact add_le_add_right (hcost st s') _
            refine le_trans hds (le_trans hr ?_)
            rw [← hsum]
            apply le_of_eq
            congr 1
            push_cast
            ring
          exact (WithTop.add_le_add_iff_left WithTop.coe_ne_top).1 hch
        have hch' : specChain p.d (path ++ [s']) := by
          refine List.chain'_append.2 ⟨hchain, List.chain'_singleton s', ?_⟩
          intro x hx y hy
          have hx' : x = st := by
            rw [Option.mem_def, hpath] at hx
            exact (Option.some.inj hx).symm
          have hy' : y = s' := by
            rw [Option.mem_def] at hy
            exact (Option.some.inj hy).symm
          show y ∈ p.d.Succ x
          rw [hx', hy']
          exact hmem
        obtain ⟨path', hpl, hlast, hchain', hhead', hcost'⟩ :=
          ih s' (path ++ [s']) (List.getLast?_concat _) hch' hub' hr'
        refine ⟨path', ?_, hlast, hchain', ?_, ?_⟩
        · show Planner.planLoop p (n + 1 + 1) st path = some (some path')
          unfold Planner.planLoop
          rw [if_neg hgoal, if_neg hfin, hs2]
          exact hpl
        · rw [hhead']
          cases path with
          | nil => exact absurd hpath (by simp)
          | cons a t => rfl
        · rw [hcost', specPathCost_append p.d path st s' hpath, add_assoc, ← hcons', heq]

/-- At a repair-loop exit state, `rhs(start)` cannot exceed the cost of
any start-to-goal path: otherwise the path would carry an inconsistent
vertex whose key compares strictly below `calcKey(start)`,
contradicting the exit condition. -/
theorem cspExit_path_lb (p : Planner S) (δ : ℚ) (hδ : 0 < δ)
    (hcost : ∀ a b, ((δ : ℚ) : EV) ≤ p.d.Cost a b)
    (hng : ∀ v, ¬ v = p.goal → p.rhs.get v = minRhsVal p v)
    (hgoal0 : p.rhs.get p.goal = 0)
    (hkm : p.km = 0)
    (hH0 : p.d.Dist p.start p.start = 0)
    (hHtri : ∀ a b, b ∈ p.d.Succ a →
      p.d.Dist p.start b ≤ p.d.Dist p.start a + p.d.Cost a b)
    (hineq : ∀ v, ¬ p.g.get v = p.rhs.get v →
      ¬ keyval (p.calcKey v) < keyval (p.calcKey p.start))
    (hse : p.rhs.get p.start ≤ p.g.get p.start)
    (C : EV) (hCR : C < p.rhs.get p.start) :
    ∀ (l : List S) (v : S) (P : EV), specChain p.d l → l.head? = some v →
      l.getLast? = some p.goal → p.d.Dist p.start v ≤ P →
      C < p.rhs.get v + P → P + specPathCost p.d l ≤ C → False := by
  have hc0 : ∀ a b, (0 : EV) ≤ p.d.Cost a b := fun a b =>
    le_trans (by exact_mod_cast hδ.le) (hcost a b)
  intro l
  induction l with
  | nil =>
      intro v P _ hh _ _ _ _
      exact Option.noConfusion hh
  | cons a l' ih =>
      intro v P hch hh hl hPd hinv hPc
      have hva : a = v := Option.some.inj hh
      subst hva
      cases l' with
      | nil =>
          have hag : a = p.goal := by
            rw [List.getLast?_singleton] at hl
            exact Option.some.inj hl
          rw [hag, hgoal0, zero_add] at hinv
          have hPC : P ≤ C := by
            have hx : P + specPathCost p.d [a] ≤ C := hPc
            rw [show specPathCost p.d [a] = 0 from rfl, add_zero] at hx
            exact hx
          exact absurd (lt_of_lt_of_le hinv hPC) (lt_irrefl C)
      | cons b r =>
          have hmem : b ∈ p.d.Succ a := (List.chain'_cons.1 hch).1
          have hch' : specChain p.d (b :: r) := (List.chain'_cons.1 hch).2
          have hcostp : specPathCost p.d (a :: b :: r)
              = p.d.Cost a b + specPathCost p.d (b :: r) := rfl
          have hnn : (0 : EV) ≤ specPathCost p.d (b :: r) :=
            specPathCost_nonneg p.d hc0 _
          by_cases hag : a = p.goal
          · rw [hag, hgoal0, zero_add] at hinv
            have hnn2 : (0 : EV) ≤ specPathCost p.d (a :: b :: r) :=
              specPathCost_nonneg p.d hc0 _
            have hPC : P ≤ C :=
              le_trans (le_add_of_nonneg_right hnn2) hPc
            exact absurd (lt_of_lt_of_le hinv hPC) (lt_irrefl C)
          · have hle : p.rhs.get a ≤ p.d.Cost a b + p.g.get b := by
              rw [hng a hag]
              exact (minRhsFold_le p a (p.d.Succ a) ⊤).1 b hmem
            have hP'C : P + p.d.Cost a b ≤ C := by
              refine le_trans ?_ hPc
              rw [hcostp, ← add_assoc]
              exact le_add_of_nonneg_right hnn
            have hinv_g : C < p.g.get b + (P + p.d.Cost a b) := by
              refine lt_of_lt_of_le hinv ?_
              calc p.rhs.get a + P
                  ≤ (p.d.Cost a b + p.g.get b) + P := add_le_add_right hle _
                _ = p.g.get b + (P + p.d.Cost a b) := by
                    rw [add_comm (p.d.Cost a b) (p.g.get b), add_assoc,
                      add_comm (p.d.Cost a b) P]
            have hPd' : p.d.Dist p.start b ≤ P + p.d.Cost a b :=
              le_trans (hHtri a b hmem) (add_le_add_right hPd _)
            have hrhsb : C < p.rhs.get b + (P + p.d.Cost a b) := by
              by_contra hcon
              have hcon' : p.rhs.get b + (P + p.d.Cost a b) ≤ C := not_lt.1 hcon
              have hgne : ¬ p.g.get b = p.rhs.get b := by
                intro hgb
                rw [hgb] at hinv_g
                exact absurd (lt_of_lt_of_le hinv_g hcon') (lt_irrefl C)
              refine hineq b hgne ?_
              rw [calcKey_start_eq p hkm hH0 hse]
              refine keyval_lt_of_lt ?_
              show min (p.g.get b) (p.rhs.get b) + p.d.Dist p.start b + p.km
                < p.rhs.get p.start
              rw [hkm, add_zero]
              refine lt_of_le_of_lt ?_ hCR
              calc min (p.g.get b) (p.rhs.get b) + p.d.Dist p.start b
                  ≤ p.rhs.get b + (P + p.d.Cost a b) :=
                    add_le_add (min_le_right _ _) hPd'
                _ ≤ C := hcon'
            have hPc' : (P + p.d.Cost a b) + specPathCost p.d (b :: r) ≤ C := by
              have hx := hPc
              rw [hcostp, ← add_assoc] at hx
              exact hx
            have hl' : (b :: r).getLast? = some p.goal := by
              rw [List.getLast?_cons_cons] at hl
              exact hl
            exact ih b (P + p.d.Cost a b) hch' rfl hl' hPd' hrhsb hPc'


/-! ## The claims -/

/-- C4: key comparison is a strict total order: for all keys exactly one
of `a<b`, `a=b`, `b<a` holds, the relation is transitive, keys are
compared component `A` first and then `B` (lexicographically), and
`compare` returns `0` iff both components agree. -/
theorem C4_key_total_order :
    (∀ a b : key, a.compare b = -1 ∨ a.compare b = 0 ∨ b.compare a = -1) ∧
    (∀ a b : key, a.compare b = -1 → ¬ (a.compare b = 0 ∨ b.compare a = -1)) ∧
    (∀ a b : key, a.compare b = 0 → ¬ (a.compare b = -1 ∨ b.compare a = -1)) ∧
    (∀ a b c : key, a.compare b = -1 → b.compare c = -1 → a.compare c = -1) ∧
    (∀ a b : key, a.compare b = -1 ↔ (a.A < b.A ∨ (a.A = b.A ∧ a.B < b.B))) ∧
    (∀ a b : key, a.compare b = 0 ↔ (a.A = b.A ∧ a.B = b.B)) := by
  refine ⟨?_, ?_, ?_, ?_, key.compare_eq_neg_one_iff, key.compare_eq_zero_iff⟩
  · intro a b
    rcases key.compare_total a b with h | h | h
    · exact Or.inl h
    · exact Or.inr (Or.inl h)
    · exact Or.inr (Or.inr ((key.compare_antisymm b a).1 h))
  · intro a b h
    rintro (h0 | hba)
    · rw [h] at h0
      exact absurd h0 (by decide)
    · rcases (key.compare_eq_neg_one_iff a b).1 h with h1 | ⟨he, h1⟩ <;>
        rcases (key.compare_eq_neg_one_iff b a).1 hba with h2 | ⟨he2, h2⟩
      · exact absurd h2 (lt_asymm h1)
      · exact absurd (he2 ▸ h1) (lt_irrefl _)
      · exact absurd (he ▸ h2) (lt_irrefl _)
      · exact absurd h2 (lt_asymm h1)
  · intro a b h
    obtain ⟨hA, hB⟩ := (key.compare_eq_zero_iff a b).1 h
    rintro (h1 | h1)
    · rcases (key.compare_eq_neg_one_iff a b).1 h1 with h2 | ⟨_, h2⟩
      · exact absurd (hA ▸ h2) (lt_irrefl _)
      · exact absurd (hB ▸ h2) (lt_irrefl _)
    · rcases (key.compare_eq_neg_one_iff b a).1 h1 with h2 | ⟨_, h2⟩
      · exact absurd (hA ▸ h2) (lt_irrefl _)
      · exact absurd (hB ▸ h2) (lt_irrefl _)
  · exact fun a b c => key.compare_trans

/-- Witness for C4 at concrete keys. -/
theorem C4_witness :
    (key.compare ⟨0, 1⟩ ⟨0, 2⟩ = -1 → ¬ (key.compare ⟨0, 1⟩ ⟨0, 2⟩ = 0 ∨
      key.compare ⟨0, 2⟩ ⟨0, 1⟩ = -1)) ∧
    (key.compare ⟨0, 1⟩ ⟨0, 2⟩ = -1 → key.compare ⟨0, 2⟩ ⟨1, 0⟩ = -1 →
      key.compare ⟨0, 1⟩ ⟨1, 0⟩ = -1) ∧
    key.compare ⟨0, 1⟩ ⟨1, 0⟩ = -1 :=
  ⟨C4_key_total_order.2.1 ⟨0, 1⟩ ⟨0, 2⟩,
   C4_key_total_order.2.2.2.1 ⟨0, 1⟩ ⟨0, 2⟩ ⟨1, 0⟩,
   C4_key_total_order.2.2.2.1 ⟨0, 1⟩ ⟨0, 2⟩ ⟨1, 0⟩ (by decide) (by decide)⟩

/-- C2: after any `updateVertex(v)`, `v` is in the frontier queue exactly
when `g(v)` and `rhs(v)` differ under the `float64Equals` tolerance; in
particular a vertex that becomes consistent while queued is removed
(that is the `remove` branch of the case split). -/
theorem C2_frontier_invariant (p : Planner S) (v : S) (h : WF p.u) :
    ((p.updateVertex v).u).contains v
      = !float64Equals (p.g.get v) (p.rhs.get v) :=
  updateVertex_contains p v h

set_option maxRecDepth 10000 in
/-- Witness for C2 on the two-vertex planner. -/
theorem C2_witness :
    WF ex0.u ∧
      ((ex0.updateVertex false).u).contains false
        = !float64Equals (ex0.g.get false) (ex0.rhs.get false) :=
  ⟨by with_unfolding_all decide,
   C2_frontier_invariant ex0 false (by with_unfolding_all decide)⟩

/-- C6: `UpdateStart(newStart)` replaces the stored start, adds exactly
`Dist(oldStart, newStart)` to `km`, leaves `g`, `rhs`, the goal, the
queue (and the data) unchanged, and `km` does not decrease when the
heuristic distance is non-negative. -/
theorem C6_update_start (p : Planner S) (s : S) :
    (p.UpdateStart s).start = s ∧
    (p.UpdateStart s).km = p.km + p.d.Dist p.start s ∧
    (p.UpdateStart s).g = p.g ∧
    (p.UpdateStart s).rhs = p.rhs ∧
    (p.UpdateStart s).goal = p.goal ∧
    (p.UpdateStart s).u = p.u ∧
    (p.UpdateStart s).d = p.d ∧
    (0 ≤ p.d.Dist p.start s → p.km ≤ (p.UpdateStart s).km) :=
  ⟨rfl, rfl, rfl, rfl, rfl, rfl, rfl,
   fun h => le_add_of_nonneg_right h⟩

/-- Witness for C6 on the two-vertex planner. -/
theorem C6_witness :
    (0 : EV) ≤ ex0.d.Dist ex0.start true ∧ ex0.km ≤ (ex0.UpdateStart true).km :=
  ⟨by with_unfolding_all decide,
   (C6_update_start ex0 true).2.2.2.2.2.2.2 (by with_unfolding_all decide)⟩

/-- C5: calling `Plan()` twice with no intervening `FlagChanged` or
`UpdateStart` returns the same result, provided the first call's repair
loop terminated (its guard is false at the returned state); the second
`computeShortestPath` is then a no-op and the greedy walk reads the same
state. -/
theorem C5_plan_idempotent (fuel : Nat) (p : Planner S)
    (h : (Planner.computeShortestPath fuel p).cspGuard = false) :
    (Planner.Plan fuel (Planner.Plan fuel p).2).1 = (Planner.Plan fuel p).1 :=
  Plan_idempotent fuel p h

set_option maxRecDepth 10000 in
/-- Witness for C5 on the two-vertex planner. -/
theorem C5_witness :
    (Planner.computeShortestPath 5 ex0).cspGuard = false ∧
      (Planner.Plan 5 (Planner.Plan 5 ex0).2).1 = (Planner.Plan 5 ex0).1 :=
  ⟨by with_unfolding_all decide,
   C5_plan_idempotent 5 ex0 (by with_unfolding_all decide)⟩

/-- C3: (a) if after `computeShortestPath()` the value `rhs(start)` is
`+Inf` (while `rhs(goal)` is finite, which holds for every planner built
by `New`), `Plan()` returns the explicit no-path result `nil` at its
very first loop check — never a partial path or an infinite walk; (b) at
any repair-loop exit state satisfying the program invariants (guard
false; the C2 frontier invariant; queued keys equal to `calcKey`; the C9
bookkeeping and the C8 heap order; `rhs` the one-step lookahead off `g`
at non-goal vertices and `0` at the goal; non-negative `g`; positive
edge costs; non-negative consistent heuristic with zero self-distance;
`km = 0` as in a static run), whenever `rhs(start)` is finite the greedy
walk of `Plan()` terminates at the goal within finite fuel.  The start
itself may still be overconsistent at such a state (`C1_counterexample`);
only the successors the walk actually visits are forced consistent by
the exit condition. -/
theorem C3_no_path_and_termination :
    (∀ (p : Planner S) (fuel : Nat), 1 ≤ fuel →
      (Planner.computeShortestPath fuel p).rhs.get
        (Planner.computeShortestPath fuel p).goal ≠ ⊤ →
      (Planner.computeShortestPath fuel p).rhs.get
        (Planner.computeShortestPath fuel p).start = ⊤ →
      (Planner.Plan fuel p).1 = some none) ∧
    (∀ (p : Planner S) (δ : ℚ), 0 < δ →
      (∀ a b, ((δ : ℚ) : EV) ≤ p.d.Cost a b) →
      (∀ v, ¬ v = p.goal → p.rhs.get v = minRhsVal p v) →
      p.rhs.get p.goal = 0 →
      (∀ v, (0 : EV) ≤ p.g.get v) →
      (∀ v, (0 : EV) ≤ p.d.Dist p.start v) →
      p.km = 0 →
      p.d.Dist p.start p.start = 0 →
      (∀ a b, b ∈ p.d.Succ a →
        p.d.Dist p.start b ≤ p.d.Dist p.start a + p.d.Cost a b) →
      WF p.u → IsHeap p.u →
      (∀ v, p.u.contains v = true ↔ ¬ p.g.get v = p.rhs.get v) →
      (∀ it ∈ p.u.items, it.k = p.calcKey it.s) →
      p.cspGuard = false →
      p.rhs.get p.start ≠ ⊤ →
      ∃ fuel path, (Planner.Plan fuel p).1 = some (some path) ∧
        path.getLast? = some p.goal) := by
  constructor
  · exact fun p fuel => plan_no_path fuel p
  · intro p δ hδ hcost hng hgoal0 hnonneg hdist hkm hH0 hHtri hWF hheap hfr hkeys
      hguard hfin
    obtain ⟨hineq, hse⟩ := cspExit_key_bound p hWF hheap hfr hkeys hguard
    obtain ⟨r, hr⟩ := WithTop.ne_top_iff_exists.1 hfin
    obtain ⟨n, hn⟩ := exists_nat_ge (r / δ)
    have hrn : r ≤ (n : ℚ) * δ := by
      rw [div_le_iff hδ] at hn
      linarith
    obtain ⟨path, hpl, hlast, _, _, _⟩ :=
      cspExit_descend p δ hδ hcost hng hgoal0 hnonneg hdist hkm hH0 hHtri hineq hse
        n p.start [p.start] rfl (List.chain'_singleton p.start)
        (by rw [hH0, add_zero]) (by rw [← hr]; exact WithTop.coe_le_coe.2 hrn)
    refine ⟨n + 1, path, ?_, hlast⟩
    show ((Planner.computeShortestPath (n+1) p).planLoop (n+1)
      (Planner.computeShortestPath (n+1) p).start
      [(Planner.computeShortestPath (n+1) p).start]) = some (some path)
    rw [csp_of_guard_false (n+1) p hguard]
    exact hpl

set_option maxRecDepth 10000 in
/-- Witness for C3: part (a) on the edgeless two-vertex graph, part (b)
at the planner state actually produced by `computeShortestPath` on the
two-vertex graph (a reachable exit state whose start is still
overconsistent). -/
theorem C3_witness :
    (Planner.Plan 3 exDisc0).1 = some none ∧
    (∃ fuel path,
      (Planner.Plan fuel (Planner.computeShortestPath 5 ex0)).1 = some (some path) ∧
        path.getLast? = some (Planner.computeShortestPath 5 ex0).goal) :=
  ⟨C3_no_path_and_termination.1 exDisc0 3 (by omega)
      (by with_unfolding_all decide) (by with_unfolding_all decide),
   C3_no_path_and_termination.2 (Planner.computeShortestPath 5 ex0) 1 (by norm_num)
      (by with_unfolding_all decide) (by with_unfolding_all decide)
      (by with_unfolding_all decide) (by with_unfolding_all decide)
      (by with_unfolding_all decide) (by with_unfolding_all decide)
      (by with_unfolding_all decide) (by with_unfolding_all decide)
      (by with_unfolding_all decide) (by with_unfolding_all decide)
      (by with_unfolding_all decide) (by with_unfolding_all decide)
      (by with_unfolding_all decide) (by with_unfolding_all decide)⟩

/-- C7: `update(s, k)` on a well-formed queue containing `s` is a no-op
when the current key of `s` compares equal to `k`, and otherwise yields
a queue literally equal to the one produced by `remove(s)` followed by
`insert(s, k)`. -/
theorem C7_update_semantics (q : priorityQueue S) (s : S) (k : key)
    (hWF : WF q) {i0 : Nat} {it0 : pqItem S}
    (hl : mlookup q.lookups s = some i0) (hg : q.items.get? i0 = some it0) :
    (it0.k.compare k = 0 → q.update s k = q) ∧
    (it0.k.compare k ≠ 0 → q.update s k = (q.remove s).insert s k) :=
  ⟨fun hcmp => update_noop q s k hl hg hcmp,
   fun hcmp => update_eq_remove_insert q s k hWF hl hg hcmp⟩

set_option maxRecDepth 10000 in
/-- Witness for C7 on the singleton queue built by `New`: an equal-key
update is a no-op and a changed-key update equals remove-then-insert. -/
theorem C7_witness :
    (ex0.u.update true ⟨0, 0⟩ = ex0.u) ∧
    (ex0.u.update true ⟨1, 1⟩ = (ex0.u.remove true).insert true ⟨1, 1⟩) :=
  ⟨(@C7_update_semantics Bool _ ex0.u true ⟨0, 0⟩ (by with_unfolding_all decide)
      0 ⟨true, ⟨0, 0⟩⟩
      (by with_unfolding_all decide) (by with_unfolding_all decide)).1
      (by with_unfolding_all decide),
   (@C7_update_semantics Bool _ ex0.u true ⟨1, 1⟩ (by with_unfolding_all decide)
      0 ⟨true, ⟨0, 0⟩⟩
      (by with_unfolding_all decide) (by with_unfolding_all decide)).2
      (by with_unfolding_all decide)⟩

/-- C8: `topKey()` on an empty queue returns the sentinel
`key{+Inf, +Inf}` instead of failing; on a non-empty heap-ordered queue
it returns the root's key, which no queued key compares strictly below.
The binary-heap order invariant backing this holds of the fresh queue and
is preserved by every queue operation (`insert`, `pop`, `update`,
`remove`). -/
theorem C8_topKey (q : priorityQueue S) :
    (q.items = [] → q.topKey = ⟨⊤, ⊤⟩) ∧
    (∀ it0, q.items.get? 0 = some it0 → q.topKey = it0.k) ∧
    (IsHeap q → ∀ it ∈ q.items, ¬ (it.k.compare q.topKey = -1)) ∧
    IsHeap (newPriorityQueue S) ∧
    (IsHeap q → ∀ s k, IsHeap (q.insert s k)) ∧
    (IsHeap q → IsHeap (q.pop).2) ∧
    (IsHeap q → ∀ s k, IsHeap (q.update s k)) ∧
    (IsHeap q → ∀ s, IsHeap (q.remove s)) := by
  refine ⟨topKey_of_nil q, fun it0 h0 => topKey_of_head h0, ?_,
    IsHeap_newPriorityQueue,
    fun h s k => IsHeap_insert q s k h,
    fun h => IsHeap_pop q h,
    fun h s k => IsHeap_update q s k h,
    fun h s => IsHeap_remove q s h⟩
  intro hheap it hmem
  obtain ⟨m, hm⟩ := List.mem_iff_get?.1 hmem
  exact topKey_min q hheap hm

set_option maxRecDepth 10000 in
/-- Witness for C8 on the empty queue and the singleton queue. -/
theorem C8_witness :
    ((newPriorityQueue Bool).topKey = ⟨⊤, ⊤⟩) ∧
    (∀ it ∈ ex0.u.items, ¬ (it.k.compare ex0.u.topKey = -1)) ∧
    IsHeap (ex0.u.insert true ⟨0, 0⟩) ∧
    IsHeap (ex0.u.pop).2 ∧
    IsHeap (ex0.u.update false ⟨0, 0⟩) ∧
    IsHeap (ex0.u.remove false) :=
  ⟨(C8_topKey (newPriorityQueue Bool)).1 rfl,
   (C8_topKey ex0.u).2.2.1 (by with_unfolding_all decide),
   (C8_topKey ex0.u).2.2.2.2.1 (by with_unfolding_all decide) true ⟨0, 0⟩,
   (C8_topKey ex0.u).2.2.2.2.2.1 (by with_unfolding_all decide),
   (C8_topKey ex0.u).2.2.2.2.2.2.1 (by with_unfolding_all decide) false ⟨0, 0⟩,
   (C8_topKey ex0.u).2.2.2.2.2.2.2 (by with_unfolding_all decide) false⟩

/-- C9: the auxiliary index map stays consistent with the backing array
(the `WF` predicate: a state is a key of `lookups` iff it occurs in
`items`, it occurs exactly once, and its recorded index is its position)
across every operation: the heap-interface `Swap`, `Push` (fresh state)
and `Pop`, and the queue API `insert` (fresh state), `pop`, `update`
(present state) and `remove` (present state). -/
theorem C9_lookups_consistency (q : priorityQueue S) (hWF : WF q) :
    (∀ i j, WF (pqSwap q i j)) ∧
    (∀ x, (∀ it ∈ q.items, it.s ≠ x.s) → WF (pqPush q x)) ∧
    WF (pqPopLast q).2 ∧
    (∀ s k, q.contains s = false → WF (q.insert s k)) ∧
    WF (q.pop).2 ∧
    (∀ s k, q.contains s = true → WF (q.update s k)) ∧
    (∀ s, q.contains s = true → WF (q.remove s)) :=
  ⟨fun i j => WF_pqSwap q i j hWF,
   fun x hf => WF_pqPush q x hWF hf,
   WF_pqPopLast q hWF,
   fun s k hc => WF_insert q s k hWF hc,
   WF_pop q hWF,
   fun s k hc => WF_update q s k hWF hc,
   fun s hc => WF_remove q s hWF hc⟩

set_option maxRecDepth 10000 in
/-- Witness for C9 on the singleton queue built by `New`. -/
theorem C9_witness :
    WF (ex0.u.remove true) ∧ WF (ex0.u.update true ⟨1, 1⟩) ∧
      WF (ex0.u.insert false ⟨2, 2⟩) :=
  ⟨(C9_lookups_consistency ex0.u (by with_unfolding_all decide)).2.2.2.2.2.2 true
      (by with_unfolding_all decide),
   (C9_lookups_consistency ex0.u (by with_unfolding_all decide)).2.2.2.2.2.1 true ⟨1, 1⟩
      (by with_unfolding_all decide),
   (C9_lookups_consistency ex0.u (by with_unfolding_all decide)).2.2.2.1 false ⟨2, 2⟩
      (by with_unfolding_all decide)⟩

set_option maxRecDepth 10000 in
/-- C1 counterexample: on the two-vertex graph (non-negative edge costs,
consistent zero heuristic, goal reachable) `computeShortestPath()`
returns — the loop guard is false — with `rhs(start) = 1`, the true
shortest-path cost (the spec-side Bellman–Ford distance), while
`g(start)` is still `+Inf`: the claimed `rhs(start) = g(start)` fails on
the code. -/
theorem C1_counterexample :
    (∀ a b : Bool, (0 : EV) ≤ exData.Cost a b) ∧
    (∀ a : Bool, exData.Dist a a = 0) ∧
    (∀ a b c : Bool, exData.Dist a b ≤ exData.Cost a c + exData.Dist c b) ∧
    (Planner.computeShortestPath 5 ex0).cspGuard = false ∧
    (Planner.computeShortestPath 5 ex0).rhs.get
        (Planner.computeShortestPath 5 ex0).start
      = specShortestCost exData true 2 false ∧
    (Planner.computeShortestPath 5 ex0).g.get
        (Planner.computeShortestPath 5 ex0).start = ⊤ ∧
    ¬ ((Planner.computeShortestPath 5 ex0).rhs.get
          (Planner.computeShortestPath 5 ex0).start
        = (Planner.computeShortestPath 5 ex0).g.get
            (Planner.computeShortestPath 5 ex0).start) := by
  with_unfolding_all decide

/-- C1 (corrected): after `computeShortestPath()` returns (its loop
guard is false) at any state satisfying the program invariants (the C2
frontier invariant, queued keys equal to `calcKey`, the C9 bookkeeping
and the C8 heap order, `rhs` the one-step lookahead off `g` at non-goal
vertices and `0` at the goal, non-negative `g`, positive edge costs,
non-negative consistent heuristic with zero self-distance, `km = 0` as
in a static run), `rhs(start)` equals the true shortest-path cost from
start to goal: it is a lower bound on the cost of every start-to-goal
path, and when finite it is attained by an actual path — so it is
`+Inf` exactly when the goal is unreachable.  The claim's further
`rhs(start) = g(start)` is refuted by `C1_counterexample`: the loop
exits as soon as the start is no longer underconsistent, and `g(start)`
may remain `+Inf`. -/
theorem C1_shortest_cost (p : Planner S) (δ : ℚ) (hδ : 0 < δ)
    (hcost : ∀ a b, ((δ : ℚ) : EV) ≤ p.d.Cost a b)
    (hng : ∀ v, ¬ v = p.goal → p.rhs.get v = minRhsVal p v)
    (hgoal0 : p.rhs.get p.goal = 0)
    (hnonneg : ∀ v, (0 : EV) ≤ p.g.get v)
    (hdist : ∀ v, (0 : EV) ≤ p.d.Dist p.start v)
    (hkm : p.km = 0)
    (hH0 : p.d.Dist p.start p.start = 0)
    (hHtri : ∀ a b, b ∈ p.d.Succ a →
      p.d.Dist p.start b ≤ p.d.Dist p.start a + p.d.Cost a b)
    (hWF : WF p.u) (hheap : IsHeap p.u)
    (hfr : ∀ v, p.u.contains v = true ↔ ¬ p.g.get v = p.rhs.get v)
    (hkeys : ∀ it ∈ p.u.items, it.k = p.calcKey it.s)
    (hguard : p.cspGuard = false) :
    (∀ l, specIsPath p.d l p.start p.goal →
      p.rhs.get p.start ≤ specPathCost p.d l) ∧
    (p.rhs.get p.start ≠ ⊤ →
      ∃ l, specIsPath p.d l p.start p.goal ∧
        specPathCost p.d l = p.rhs.get p.start) := by
  obtain ⟨hineq, hse⟩ := cspExit_key_bound p hWF hheap hfr hkeys hguard
  constructor
  · intro l hpath
    by_cases hC : specPathCost p.d l = ⊤
    · rw [hC]
      exact le_top
    · by_contra hcon
      exact cspExit_path_lb p δ hδ hcost hng hgoal0 hkm hH0 hHtri hineq hse
        (specPathCost p.d l) (not_le.1 hcon) l p.start 0 hpath.1 hpath.2.1
        hpath.2.2 (le_of_eq hH0)
        (by rw [add_zero]; exact not_le.1 hcon)
        (le_of_eq (zero_add _))
  · intro hfin
    obtain ⟨r, hr⟩ := WithTop.ne_top_iff_exists.1 hfin
    obtain ⟨n, hn⟩ := exists_nat_ge (r / δ)
    have hrn : r ≤ (n : ℚ) * δ := by
      rw [div_le_iff hδ] at hn
      linarith
    obtain ⟨path', hpl, hlast, hchain', hhead', hcost'⟩ :=
      cspExit_descend p δ hδ hcost hng hgoal0 hnonneg hdist hkm hH0 hHtri hineq hse
        n p.start [p.start] rfl (List.chain'_singleton p.start)
        (by rw [hH0, add_zero]) (by rw [← hr]; exact WithTop.coe_le_coe.2 hrn)
    refine ⟨path', ⟨hchain', ?_, hlast⟩, ?_⟩
    · rw [hhead']
      rfl
    · rw [hcost']
      show specPathCost p.d [p.start] + p.rhs.get p.start = p.rhs.get p.start
      rw [show specPathCost p.d [p.start] = 0 from rfl, zero_add]

set_option maxRecDepth 10000 in
/-- Witness for the corrected C1 at the planner state actually produced
by `computeShortestPath` on the two-vertex graph: there `rhs(start) = 1`
bounds every start-to-goal path's cost and is attained by a real path
(while `g(start)` is still `+Inf`, per the counterexample). -/
theorem C1_shortest_witness :
    (∀ l, specIsPath (Planner.computeShortestPath 5 ex0).d l
        (Planner.computeShortestPath 5 ex0).start
        (Planner.computeShortestPath 5 ex0).goal →
      (Planner.computeShortestPath 5 ex0).rhs.get
          (Planner.computeShortestPath 5 ex0).start ≤
        specPathCost (Planner.computeShortestPath 5 ex0).d l) ∧
    (∃ l, specIsPath (Planner.computeShortestPath 5 ex0).d l
        (Planner.computeShortestPath 5 ex0).start
        (Planner.computeShortestPath 5 ex0).goal ∧
      specPathCost (Planner.computeShortestPath 5 ex0).d l
        = (Planner.computeShortestPath 5 ex0).rhs.get
            (Planner.computeShortestPath 5 ex0).start) :=
  ⟨(C1_shortest_cost (Planner.computeShortestPath 5 ex0) 1 (by norm_num)
      (by with_unfolding_all decide) (by with_unfolding_all decide)
      (by with_unfolding_all decide) (by with_unfolding_all decide)
      (by with_unfolding_all decide) (by with_unfolding_all decide)
      (by with_unfolding_all decide) (by with_unfolding_all decide)
      (by with_unfolding_all decide) (by with_unfolding_all decide)
      (by with_unfolding_all decide) (by with_unfolding_all decide)
      (by with_unfolding_all decide)).1,
   (C1_shortest_cost (Planner.computeShortestPath 5 ex0) 1 (by norm_num)
      (by with_unfolding_all decide) (by with_unfolding_all decide)
      (by with_unfolding_all decide) (by with_unfolding_all decide)
      (by with_unfolding_all decide) (by with_unfolding_all decide)
      (by with_unfolding_all decide) (by with_unfolding_all decide)
      (by with_unfolding_all decide) (by with_unfolding_all decide)
      (by with_unfolding_all decide) (by with_unfolding_all decide)
      (by with_unfolding_all decide)).2 (by with_unfolding_all decide)⟩
